import Mathlib

/-!
Shallow embedding of the activity-report aggregation core of RewindMCP
(`src/rewinddb/core.py`): the hour-of-day and calendar-day interval
bucketizers, the continuous-session merger, the category rankers and the
three report builders `get_app_usage`, `get_active_hours`, `get_meetings`.

Timestamps are modelled as UTC seconds since the epoch (`ℕ`); `datetime.hour`
is `t / 3600 % 24`, `.date()` is the day index `t / 86400`, and
`(t + 1h).replace(minute=0, second=0, microsecond=0)` is the next hour
boundary `(t / 3600 + 1) * 3600` (all input datetimes are tz-aware UTC, so
`replace` truncates within the same scale). Durations are `ℤ` seconds;
`duration_seconds` is carried as a record field exactly as the Python dicts
carry it, with well-formedness (`durSec = end - start`) as a hypothesis where
a claim assumes it.
-/

namespace RewindMCP

/-- `datetime.hour` of a UTC timestamp in seconds. -/
def hourOf (t : ℕ) : ℕ := t / 3600 % 24

/-- `(t + timedelta(hours=1)).replace(minute=0, second=0, microsecond=0)`. -/
def nextHourBoundary (t : ℕ) : ℕ := (t / 3600 + 1) * 3600

/-- `datetime.date()` as a day index. -/
def dayOf (t : ℕ) : ℕ := t / 86400

/-- `(t + timedelta(days=1)).replace(hour=0, minute=0, second=0, microsecond=0)`. -/
def nextDayBoundary (t : ℕ) : ℕ := (t / 86400 + 1) * 86400

theorem lt_nextHourBoundary (t : ℕ) : t < nextHourBoundary t := by
  unfold nextHourBoundary; omega

theorem hourOf_lt_24 (t : ℕ) : hourOf t < 24 := by
  unfold hourOf; omega

theorem dayOf_nextDayBoundary (t : ℕ) : dayOf (nextDayBoundary t) = dayOf t + 1 := by
  unfold dayOf nextDayBoundary; omega

theorem lt_nextDayBoundary (t : ℕ) : t < nextDayBoundary t := by
  unfold nextDayBoundary; omega

/-- The multi-hour walk of the source (`while current_time < end: next_hour = ...;
credit min(next_hour, end) - current to the hour of current; current = next_hour`),
returning the list of `(hour-of-day, seconds)` credits in emission order.
This is the variant of `get_active_hours` / `get_meetings`, which reads
`current_time.hour` at each step. -/
def hourWalk (cur endT : ℕ) : List (ℕ × ℤ) :=
  if _h : cur < endT then
    let nb := nextHourBoundary cur
    if endT < nb then [(hourOf cur, (endT : ℤ) - cur)]
    else (hourOf cur, (nb : ℤ) - cur) :: hourWalk nb endT
  else []
termination_by endT - cur
decreasing_by
  simp only [nextHourBoundary] at *
  omega

/-- The hour credits of one interval: the single-bucket fast path when
`start.hour == end.hour`, otherwise the boundary walk
(`get_active_hours` / `get_meetings` variant). -/
def creditHours (s e : ℕ) (dur : ℤ) : List (ℕ × ℤ) :=
  if hourOf s = hourOf e then [(hourOf s, dur)]
  else hourWalk s e

/-- The multi-hour walk of `get_app_usage`, which tracks the bucket index
incrementally as `current_hour = (current_hour + 1) % 24` instead of
re-reading `current_time.hour`. -/
def hourWalkApp (curHour cur endT : ℕ) : List (ℕ × ℤ) :=
  if _h : cur < endT then
    let nb := nextHourBoundary cur
    if endT < nb then [(curHour, (endT : ℤ) - cur)]
    else (curHour, (nb : ℤ) - cur) :: hourWalkApp ((curHour + 1) % 24) nb endT
  else []
termination_by endT - cur
decreasing_by
  simp only [nextHourBoundary] at *
  omega

/-- Hour credits of one segment in `get_app_usage`. -/
def creditHoursApp (s e : ℕ) (dur : ℤ) : List (ℕ × ℤ) :=
  if hourOf s = hourOf e then [(hourOf s, dur)]
  else hourWalkApp (hourOf s) s e

/-- The multi-day walk of the source together with the final credit
(`while current_date < end_date: credit next_day - current_time to
current_date; ...` followed by `credit end - current_time to current_date`),
as a list of `(day index, seconds)` credits. `current_date` always equals
`current_time.date()` in the source (it is reassigned to `next_day.date()`
together with `current_time = next_day`), so it is not carried separately. -/
def dayWalkAll (curT endT endDate : ℕ) : List (ℕ × ℤ) :=
  if _h : dayOf curT < endDate then
    let nd := nextDayBoundary curT
    (dayOf curT, (nd : ℤ) - curT) :: dayWalkAll nd endT endDate
  else [(dayOf curT, (endT : ℤ) - curT)]
termination_by endDate - dayOf curT
decreasing_by
  simp only [dayOf_nextDayBoundary]
  omega

/-- The day credits of one interval: full duration to the start date when
`start.date() == end.date()`, otherwise the midnight-boundary walk. -/
def creditDays (s e : ℕ) (dur : ℤ) : List (ℕ × ℤ) :=
  if dayOf s = dayOf e then [(dayOf s, dur)]
  else dayWalkAll s e (dayOf e)

/-- Seconds a credit list assigns to bucket `k`. -/
def sumAt (credits : List (ℕ × ℤ)) (k : ℕ) : ℤ :=
  ((credits.filter (fun p => p.1 == k)).map Prod.snd).sum

/-- Total seconds of a credit list across all buckets. -/
def totalCredits (credits : List (ℕ × ℤ)) : ℤ :=
  (credits.map Prod.snd).sum

theorem sumAt_nil (k : ℕ) : sumAt [] k = 0 := rfl

theorem sumAt_cons (p : ℕ × ℤ) (cs : List (ℕ × ℤ)) (k : ℕ) :
    sumAt (p :: cs) k = (if p.1 = k then p.2 else 0) + sumAt cs k := by
  by_cases h : p.1 = k <;> simp [sumAt, List.filter_cons, h]

/-- Summing per-bucket totals over any index set containing every key
recovers the total credit. -/
theorem sum_sumAt (credits : List (ℕ × ℤ)) (S : Finset ℕ)
    (hk : ∀ p ∈ credits, p.1 ∈ S) :
    (∑ k ∈ S, sumAt credits k) = totalCredits credits := by
  induction credits with
  | nil => simp [sumAt_nil, totalCredits]
  | cons p cs ih =>
      have hmem : p.1 ∈ S := hk p (List.mem_cons_self p cs)
      have hrest : ∀ q ∈ cs, q.1 ∈ S := fun q hq => hk q (List.mem_cons_of_mem p hq)
      have : (∑ k ∈ S, sumAt (p :: cs) k)
          = (∑ k ∈ S, ((if p.1 = k then p.2 else 0) + sumAt cs k)) := by
        refine Finset.sum_congr rfl fun k _ => ?_
        exact sumAt_cons p cs k
      rw [this, Finset.sum_add_distrib, ih hrest]
      have hind : (∑ k ∈ S, (if p.1 = k then p.2 else 0)) = p.2 := by
        rw [Finset.sum_ite_eq S p.1 (fun _ => p.2)]
        simp [hmem]
      rw [hind]
      simp [totalCredits]

theorem hourWalk_total (cur endT : ℕ) (h : cur < endT) :
    totalCredits (hourWalk cur endT) = (endT : ℤ) - cur := by
  rw [hourWalk]
  simp only [dif_pos h]
  by_cases hb : endT < nextHourBoundary cur
  · simp [totalCredits, hb]
  · simp only [if_neg hb]
    rcases lt_or_eq_of_le (not_lt.mp hb) with hlt | heq
    · have := hourWalk_total (nextHourBoundary cur) endT hlt
      simp only [totalCredits] at *
      rw [List.map_cons, List.sum_cons, this]
      ring
    · rw [heq]
      have : ¬ (nextHourBoundary cur < nextHourBoundary cur) := lt_irrefl _
      rw [hourWalk]
      simp only [totalCredits, heq, dif_neg (lt_irrefl (nextHourBoundary cur))]
      simp
termination_by endT - cur
decreasing_by
  have := lt_nextHourBoundary cur
  omega

theorem hourWalk_keys (cur endT : ℕ) :
    ∀ p ∈ hourWalk cur endT, p.1 < 24 := by
  rw [hourWalk]
  by_cases h : cur < endT
  · simp only [dif_pos h]
    by_cases hb : endT < nextHourBoundary cur
    · simp only [if_pos hb]
      intro p hp
      simp only [List.mem_singleton] at hp
      subst hp
      exact hourOf_lt_24 cur
    · simp only [if_neg hb]
      intro p hp
      rcases List.mem_cons.mp hp with hp | hp
      · subst hp; exact hourOf_lt_24 cur
      · exact hourWalk_keys (nextHourBoundary cur) endT p hp
  · simp [dif_neg h]
termination_by endT - cur
decreasing_by
  have := lt_nextHourBoundary cur
  omega

theorem creditHours_keys (s e : ℕ) (dur : ℤ) :
    ∀ p ∈ creditHours s e dur, p.1 < 24 := by
  unfold creditHours
  by_cases h : hourOf s = hourOf e
  · intro p hp
    simp only [if_pos h, List.mem_singleton] at hp
    subst hp
    exact hourOf_lt_24 s
  · simp only [if_neg h]
    exact hourWalk_keys s e

theorem dayWalkAll_total (curT endT endDate : ℕ) :
    totalCredits (dayWalkAll curT endT endDate) = (endT : ℤ) - curT := by
  rw [dayWalkAll]
  by_cases h : dayOf curT < endDate
  · simp only [dif_pos h]
    have := dayWalkAll_total (nextDayBoundary curT) endT endDate
    simp only [totalCredits] at *
    rw [List.map_cons, List.sum_cons, this]
    ring
  · simp [dif_neg h, totalCredits]
termination_by endDate - dayOf curT
decreasing_by
  rw [dayOf_nextDayBoundary]
  omega

/-- C1 helper: conservation of the hour credits of one interval. -/
theorem creditHours_conserves (s e : ℕ) (h : s < e) :
    (∑ k ∈ Finset.range 24, sumAt (creditHours s e ((e : ℤ) - s)) k)
      = (e : ℤ) - s := by
  rw [sum_sumAt _ _ (fun p hp => Finset.mem_range.mpr (creditHours_keys s e _ p hp))]
  unfold creditHours
  by_cases hh : hourOf s = hourOf e
  · simp [hh, totalCredits]
  · simp only [if_neg hh]
    exact hourWalk_total s e h

theorem dayOf_mono {a b : ℕ} (h : a ≤ b) : dayOf a ≤ dayOf b := by
  unfold dayOf; omega

theorem dayWalkAll_keys (curT endT : ℕ) (hle : curT ≤ endT) :
    ∀ p ∈ dayWalkAll curT endT (dayOf endT),
      dayOf curT ≤ p.1 ∧ p.1 ≤ dayOf endT := by
  rw [dayWalkAll]
  by_cases h : dayOf curT < dayOf endT
  · simp only [dif_pos h]
    intro p hp
    rcases List.mem_cons.mp hp with hp | hp
    · subst hp
      exact ⟨le_refl _, le_of_lt h⟩
    · have hnd : nextDayBoundary curT ≤ endT := by
        unfold dayOf at h
        unfold nextDayBoundary
        omega
      have := dayWalkAll_keys (nextDayBoundary curT) endT hnd p hp
      rw [dayOf_nextDayBoundary] at this
      exact ⟨by omega, this.2⟩
  · simp only [dif_neg h]
    intro p hp
    simp only [List.mem_singleton] at hp
    subst hp
    exact ⟨le_refl _, dayOf_mono hle⟩
termination_by dayOf endT - dayOf curT
decreasing_by
  rw [dayOf_nextDayBoundary]
  omega

theorem creditDays_total (s e : ℕ) (h : s < e) :
    totalCredits (creditDays s e ((e : ℤ) - s)) = (e : ℤ) - s := by
  unfold creditDays
  by_cases hd : dayOf s = dayOf e
  · simp [hd, totalCredits]
  · simp only [if_neg hd]
    exact dayWalkAll_total s e (dayOf e)

/-- C1 helper: conservation of the day credits of one interval, summed over
every day the interval can touch. -/
theorem creditDays_conserves (s e : ℕ) (h : s < e) :
    (∑ k ∈ Finset.Icc (dayOf s) (dayOf e), sumAt (creditDays s e ((e : ℤ) - s)) k)
      = (e : ℤ) - s := by
  have hkeys : ∀ p ∈ creditDays s e ((e : ℤ) - s),
      p.1 ∈ Finset.Icc (dayOf s) (dayOf e) := by
    intro p hp
    unfold creditDays at hp
    by_cases hd : dayOf s = dayOf e
    · simp only [if_pos hd, List.mem_singleton] at hp
      subst hp
      simp [hd]
    · simp only [if_neg hd] at hp
      have := dayWalkAll_keys s e (le_of_lt h) p hp
      exact Finset.mem_Icc.mpr this
  rw [sum_sumAt _ _ hkeys]
  exact creditDays_total s e h

/-- Number of whole seconds the span `[a, b)` spends at instants `t` with
`f t = v` (`f` is `hourOf` or `dayOf`): the exact time an interval spends in
hours/days carrying a given bucket label. -/
def spentIn (f : ℕ → ℕ) (v a b : ℕ) : ℕ :=
  ((Finset.Ico a b).filter (fun t => f t = v)).card

theorem spentIn_const (f : ℕ → ℕ) (v a b : ℕ)
    (hc : ∀ t, a ≤ t → t < b → f t = f a) :
    spentIn f v a b = if f a = v then b - a else 0 := by
  unfold spentIn
  by_cases hv : f a = v
  · rw [if_pos hv]
    have : (Finset.Ico a b).filter (fun t => f t = v) = Finset.Ico a b := by
      apply Finset.filter_true_of_mem
      intro t ht
      rcases Finset.mem_Ico.mp ht with ⟨h1, h2⟩
      rw [hc t h1 h2, hv]
    rw [this, Nat.card_Ico]
  · rw [if_neg hv]
    have : (Finset.Ico a b).filter (fun t => f t = v) = ∅ := by
      apply Finset.filter_false_of_mem
      intro t ht
      rcases Finset.mem_Ico.mp ht with ⟨h1, h2⟩
      rw [hc t h1 h2]
      exact hv
    rw [this, Finset.card_empty]

theorem spentIn_split (f : ℕ → ℕ) (v a m b : ℕ) (h1 : a ≤ m) (h2 : m ≤ b) :
    spentIn f v a b = spentIn f v a m + spentIn f v m b := by
  unfold spentIn
  rw [← Finset.Ico_union_Ico_eq_Ico h1 h2, Finset.filter_union,
      Finset.card_union_of_disjoint]
  exact Finset.disjoint_filter_filter (Finset.Ico_disjoint_Ico_consecutive a m b)

theorem hourOf_const_before_boundary (cur t : ℕ) (h1 : cur ≤ t)
    (h2 : t < nextHourBoundary cur) : hourOf t = hourOf cur := by
  unfold hourOf nextHourBoundary at *
  omega

theorem dayOf_const_before_boundary (cur t : ℕ) (h1 : cur ≤ t)
    (h2 : t < nextDayBoundary cur) : dayOf t = dayOf cur := by
  unfold dayOf nextDayBoundary at *
  omega

/-- The hour walk credits each hour-of-day exactly the time the interval
spends in hours carrying that number. -/
theorem hourWalk_sumAt (cur endT : ℕ) (h : cur < endT) (v : ℕ) :
    sumAt (hourWalk cur endT) v = (spentIn hourOf v cur endT : ℤ) := by
  rw [hourWalk]
  simp only [dif_pos h]
  by_cases hb : endT < nextHourBoundary cur
  · simp only [if_pos hb]
    rw [sumAt_cons, sumAt_nil]
    rw [spentIn_const hourOf v cur endT
      (fun t h1 h2 => hourOf_const_before_boundary cur t h1 (lt_trans h2 hb))]
    by_cases hv : hourOf cur = v <;> simp [hv] <;> push_cast <;> omega
  · simp only [if_neg hb]
    have hnb : nextHourBoundary cur ≤ endT := not_lt.mp hb
    rw [sumAt_cons]
    rw [spentIn_split hourOf v cur (nextHourBoundary cur) endT
      (le_of_lt (lt_nextHourBoundary cur)) hnb]
    rw [spentIn_const hourOf v cur (nextHourBoundary cur)
      (fun t h1 h2 => hourOf_const_before_boundary cur t h1 h2)]
    have hcb := lt_nextHourBoundary cur
    rcases lt_or_eq_of_le hnb with hlt | heq
    · rw [hourWalk_sumAt (nextHourBoundary cur) endT hlt v]
      by_cases hv : hourOf cur = v <;> simp [hv] <;> push_cast <;> omega
    · rw [← heq]
      have hnil : hourWalk (nextHourBoundary cur) (nextHourBoundary cur) = [] := by
        rw [hourWalk]
        simp
      have hsp : spentIn hourOf v (nextHourBoundary cur) (nextHourBoundary cur) = 0 := by
        unfold spentIn
        simp
      rw [hnil, sumAt_nil, hsp]
      by_cases hv : hourOf cur = v <;> simp [hv] <;> push_cast <;> omega
termination_by endT - cur
decreasing_by
  have := lt_nextHourBoundary cur
  omega

/-- The day walk (with its final partial-day credit) credits each calendar
day exactly the time the interval spends in it. -/
theorem dayWalkAll_sumAt (curT endT : ℕ) (hle : curT ≤ endT) (v : ℕ) :
    sumAt (dayWalkAll curT endT (dayOf endT)) v
      = (spentIn dayOf v curT endT : ℤ) := by
  rw [dayWalkAll]
  by_cases h : dayOf curT < dayOf endT
  · simp only [dif_pos h]
    have hnd : nextDayBoundary curT ≤ endT := by
      unfold dayOf at h
      unfold nextDayBoundary
      omega
    rw [sumAt_cons]
    rw [spentIn_split dayOf v curT (nextDayBoundary curT) endT
      (le_of_lt (lt_nextDayBoundary curT)) hnd]
    rw [spentIn_const dayOf v curT (nextDayBoundary curT)
      (fun t h1 h2 => dayOf_const_before_boundary curT t h1 h2)]
    rw [dayWalkAll_sumAt (nextDayBoundary curT) endT hnd v]
    have hcb := lt_nextDayBoundary curT
    by_cases hv : dayOf curT = v <;> simp [hv] <;> push_cast <;> omega
  · simp only [dif_neg h]
    have heq : dayOf curT = dayOf endT := le_antisymm (dayOf_mono hle) (not_lt.mp h)
    rw [sumAt_cons, sumAt_nil]
    have hc : ∀ t, curT ≤ t → t < endT → dayOf t = dayOf curT := by
      intro t h1 h2
      have := dayOf_mono h1
      have := dayOf_mono (le_of_lt h2)
      omega
    rw [spentIn_const dayOf v curT endT hc]
    by_cases hv : dayOf curT = v <;> simp [hv] <;> omega
termination_by dayOf endT - dayOf curT
decreasing_by
  rw [dayOf_nextDayBoundary]
  omega

/-- `get_app_usage`'s incrementally tracked bucket index agrees with
re-reading `current_time.hour`: the two walk variants emit the same credits. -/
theorem hourWalkApp_eq (cur endT : ℕ) :
    hourWalkApp (hourOf cur) cur endT = hourWalk cur endT := by
  rw [hourWalkApp, hourWalk]
  by_cases h : cur < endT
  · simp only [dif_pos h]
    by_cases hb : endT < nextHourBoundary cur
    · simp [hb]
    · simp only [if_neg hb]
      have hnext : (hourOf cur + 1) % 24 = hourOf (nextHourBoundary cur) := by
        unfold hourOf nextHourBoundary
        omega
      rw [hnext, hourWalkApp_eq (nextHourBoundary cur) endT]
  · simp [dif_neg h]
termination_by endT - cur
decreasing_by
  have := lt_nextHourBoundary cur
  omega

theorem creditHoursApp_eq (s e : ℕ) (dur : ℤ) :
    creditHoursApp s e dur = creditHours s e dur := by
  unfold creditHoursApp creditHours
  rw [hourWalkApp_eq]

/-- C1: for every interval with `end` strictly after `start` and
`duration_seconds = end - start`, the seconds credited across the 24
hour-of-day buckets sum to exactly `end - start`, for both hour-walk
variants (`get_active_hours`/`get_meetings` and `get_app_usage`), and the
seconds credited across all day buckets likewise sum to `end - start`. -/
theorem c1_bucket_conservation (s e : ℕ) (h : s < e) :
    (∑ k ∈ Finset.range 24, sumAt (creditHours s e ((e : ℤ) - s)) k)
        = (e : ℤ) - s
    ∧ (∑ k ∈ Finset.range 24, sumAt (creditHoursApp s e ((e : ℤ) - s)) k)
        = (e : ℤ) - s
    ∧ (∑ k ∈ Finset.Icc (dayOf s) (dayOf e), sumAt (creditDays s e ((e : ℤ) - s)) k)
        = (e : ℤ) - s := by
  refine ⟨creditHours_conserves s e h, ?_, creditDays_conserves s e h⟩
  rw [creditHoursApp_eq]
  exact creditHours_conserves s e h

theorem c1_bucket_conservation_witness :
    48600 < 53100
    ∧ ((∑ k ∈ Finset.range 24, sumAt (creditHours 48600 53100 ((53100 : ℤ) - 48600)) k)
          = (53100 : ℤ) - 48600
      ∧ (∑ k ∈ Finset.range 24, sumAt (creditHoursApp 48600 53100 ((53100 : ℤ) - 48600)) k)
          = (53100 : ℤ) - 48600
      ∧ (∑ k ∈ Finset.Icc (dayOf 48600) (dayOf 53100),
            sumAt (creditDays 48600 53100 ((53100 : ℤ) - 48600)) k)
          = (53100 : ℤ) - 48600) :=
  ⟨by decide, c1_bucket_conservation 48600 53100 (by decide)⟩

/-- C3 counterexample: the interval 13:30:00 of day 0 to 13:40:00 of day 1
crosses a day boundary and revisits hour 13 on the next day, yet the hour
bucketizer still takes the single-bucket fast path (the source only compares
`start.hour == end.hour`), crediting the full 87000 seconds to hour 13. -/
theorem c3_counterexample :
    creditHours 48600 135600 ((135600 : ℤ) - 48600) = [(13, 87000)]
    ∧ creditHoursApp 48600 135600 ((135600 : ℤ) - 48600) = [(13, 87000)]
    ∧ hourOf 48600 = hourOf 135600
    ∧ dayOf 48600 ≠ dayOf 135600 := by
  refine ⟨?_, ?_, by decide, by decide⟩ <;>
    simp [creditHours, creditHoursApp, hourOf]

/-- C3 amended: the bucketizer credits the full `duration_seconds` to the
single bucket `start.hour` exactly when `start.hour == end.hour` — even when
the interval crosses a day boundary that revisits that hour number — and
when the hour numbers differ, the forward boundary walk credits each
hour-of-day exactly the time the interval spends during hours with that
number. -/
theorem c3_amended (s e : ℕ) (h : s < e) (dur : ℤ) :
    (hourOf s = hourOf e →
      creditHours s e dur = [(hourOf s, dur)]
      ∧ creditHoursApp s e dur = [(hourOf s, dur)])
    ∧ (hourOf s ≠ hourOf e → ∀ v : ℕ,
      sumAt (creditHours s e dur) v = (spentIn hourOf v s e : ℤ)
      ∧ sumAt (creditHoursApp s e dur) v = (spentIn hourOf v s e : ℤ)) := by
  constructor
  · intro hh
    rw [creditHoursApp_eq]
    unfold creditHours
    simp [hh]
  · intro hh v
    rw [creditHoursApp_eq]
    unfold creditHours
    simp only [if_neg hh]
    exact ⟨hourWalk_sumAt s e h v, hourWalk_sumAt s e h v⟩

theorem c3_amended_witness :
    48600 < 53100
    ∧ ((hourOf 48600 = hourOf 53100 →
        creditHours 48600 53100 4500 = [(hourOf 48600, 4500)]
        ∧ creditHoursApp 48600 53100 4500 = [(hourOf 48600, 4500)])
      ∧ (hourOf 48600 ≠ hourOf 53100 → ∀ v : ℕ,
        sumAt (creditHours 48600 53100 4500) v = (spentIn hourOf v 48600 53100 : ℤ)
        ∧ sumAt (creditHoursApp 48600 53100 4500) v
            = (spentIn hourOf v 48600 53100 : ℤ))) :=
  ⟨by decide, c3_amended 48600 53100 (by decide) 4500⟩

/-- C7: the interval 23:30:00 of day 0 to 00:30:00 of day 1 credits 1800
seconds to each of the two days, and in general the midnight walk credits
every calendar day exactly the time the interval spends in it, over
arbitrarily many midnight boundaries. -/
theorem c7_day_boundary_split (s e : ℕ) (h : s ≤ e) (d : ℕ) :
    creditDays 84600 88200 3600 = [(0, 1800), (1, 1800)]
    ∧ sumAt (creditDays s e ((e : ℤ) - s)) d = (spentIn dayOf d s e : ℤ) := by
  constructor
  · unfold creditDays
    rw [if_neg (by decide : ¬ dayOf 84600 = dayOf 88200)]
    rw [dayWalkAll]
    norm_num [dayOf, nextDayBoundary]
    rw [dayWalkAll]
    norm_num [dayOf]
  · unfold creditDays
    by_cases hd : dayOf s = dayOf e
    · rw [if_pos hd, sumAt_cons, sumAt_nil]
      have hc : ∀ t, s ≤ t → t < e → dayOf t = dayOf s := by
        intro t h1 h2
        have := dayOf_mono h1
        have := dayOf_mono (le_of_lt h2)
        omega
      rw [spentIn_const dayOf d s e hc]
      by_cases hv : dayOf s = d <;> simp [hv] <;> push_cast <;> omega
    · rw [if_neg hd]
      exact dayWalkAll_sumAt s e h d

theorem c7_day_boundary_split_witness :
    84600 ≤ 88200
    ∧ (creditDays 84600 88200 3600 = [(0, 1800), (1, 1800)]
      ∧ sumAt (creditDays 84600 88200 ((88200 : ℤ) - 84600)) 1
          = (spentIn dayOf 1 84600 88200 : ℤ)) :=
  ⟨by decide, c7_day_boundary_split 84600 88200 (by decide) 1⟩

/-! ## Data model

A `Segment` is one row of `get_segments`: `application` (`bundleID`),
`window` (`windowName`) and `browser_url` (`browserUrl`) may be SQL `NULL`
(`Option`), and `duration_seconds` is carried as a field, computed upstream
as `end - start`; well-formedness of that field is the hypothesis `wfSeg`. -/

structure Segment where
  startT : ℕ
  endT : ℕ
  app : Option String
  window : Option String
  browserUrl : Option String
  durSec : ℤ
deriving DecidableEq

/-- `duration_seconds` agrees with the timestamps (how `get_segments`
computes it: `(end_time - start_time).total_seconds()`). -/
def wfSeg (s : Segment) : Prop := s.durSec = (s.endT : ℤ) - s.startT

instance (s : Segment) : Decidable (wfSeg s) := by
  unfold wfSeg
  infer_instance

/-- One entry of `active_periods`: `{'start', 'end', 'duration_seconds'}`. -/
structure ActivePeriod where
  start : ℕ
  stop : ℕ
  durationSeconds : ℤ
deriving DecidableEq

/-- Stable insertion by `start_time`: the new element goes after every
already-placed element with `start ≤` its own, which is exactly where
Python's stable `sorted(segments, key=lambda x: x['start_time'])` places a
later-occurring element. Stable sorting is uniquely determined by the key,
so insertion sort is extensionally equal to the source's Timsort. -/
def insertByStart (s : Segment) : List Segment → List Segment
  | [] => [s]
  | t :: ts => if t.startT ≤ s.startT then t :: insertByStart s ts else s :: t :: ts

def sortByStart (l : List Segment) : List Segment :=
  l.foldl (fun acc s => insertByStart s acc) []

theorem insertByStart_perm (s : Segment) (l : List Segment) :
    List.Perm (insertByStart s l) (s :: l) := by
  induction l with
  | nil => simp [insertByStart]
  | cons t ts ih =>
      by_cases h : t.startT ≤ s.startT
      · simp only [insertByStart, if_pos h]
        exact List.Perm.trans (List.Perm.cons t ih) (List.Perm.swap s t ts)
      · simp [insertByStart, if_neg h]

theorem sortByStart_perm (l : List Segment) : List.Perm (sortByStart l) l := by
  suffices h : ∀ acc : List Segment,
      List.Perm (l.foldl (fun acc s => insertByStart s acc) acc) (acc ++ l) by
    simpa using h []
  induction l with
  | nil => simp
  | cons t ts ih =>
      intro acc
      simp only [List.foldl_cons]
      refine List.Perm.trans (ih (insertByStart t acc)) ?_
      have h1 : List.Perm (insertByStart t acc) (t :: acc) := insertByStart_perm t acc
      have h2 : List.Perm (insertByStart t acc ++ ts) ((t :: acc) ++ ts) :=
        List.Perm.append_right ts h1
      refine List.Perm.trans h2 ?_
      simp only [List.cons_append]
      exact (List.perm_middle).symm

theorem mem_insertByStart {x s : Segment} {l : List Segment} :
    x ∈ insertByStart s l ↔ x = s ∨ x ∈ l := by
  rw [(insertByStart_perm s l).mem_iff]
  simp

theorem insertByStart_sorted (s : Segment) (l : List Segment)
    (h : l.Pairwise (fun a b => a.startT ≤ b.startT)) :
    (insertByStart s l).Pairwise (fun a b => a.startT ≤ b.startT) := by
  induction l with
  | nil => simp [insertByStart]
  | cons t ts ih =>
      rcases List.pairwise_cons.mp h with ⟨ht, hts⟩
      by_cases hle : t.startT ≤ s.startT
      · simp only [insertByStart, if_pos hle]
        refine List.pairwise_cons.mpr ⟨?_, ih hts⟩
        intro b hb
        rcases mem_insertByStart.mp hb with hb | hb
        · subst hb; exact hle
        · exact ht b hb
      · simp only [insertByStart, if_neg hle]
        refine List.pairwise_cons.mpr ⟨?_, h⟩
        intro b hb
        rcases List.mem_cons.mp hb with hb | hb
        · subst hb; omega
        · exact le_trans (by omega) (ht b hb)

theorem sortByStart_sorted (l : List Segment) :
    (sortByStart l).Pairwise (fun a b => a.startT ≤ b.startT) := by
  suffices h : ∀ acc : List Segment, acc.Pairwise (fun a b => a.startT ≤ b.startT) →
      (l.foldl (fun acc s => insertByStart s acc) acc).Pairwise
        (fun a b => a.startT ≤ b.startT) by
    exact h [] (List.Pairwise.nil)
  induction l with
  | nil => intro acc h; simpa using h
  | cons t ts ih =>
      intro acc hacc
      simp only [List.foldl_cons]
      exact ih _ (insertByStart_sorted t acc hacc)

/-! ## SessionMerger

The continuous-activity part of the `get_active_hours` loop: skip
non-positive durations; start, extend (`current_period_end =
max(current_period_end, segment.end_time)`) or emit the current period
depending on `(segment.start_time - current_period_end).total_seconds() <=
gap_threshold`; emit the final period after the loop. The source appends
emitted periods to a growing `active_periods` list; the recursion below
emits them in front, which yields the same list (bridge lemma
`sessFold_eq_mergeLoop`). -/

def mergeLoop (gap : ℤ) : List Segment → Option (ℕ × ℕ) → List ActivePeriod
  | [], none => []
  | [], some (cs, ce) => [⟨cs, ce, (ce : ℤ) - cs⟩]
  | seg :: rest, cur =>
    if seg.durSec ≤ 0 then mergeLoop gap rest cur
    else
      match cur with
      | none => mergeLoop gap rest (some (seg.startT, seg.endT))
      | some (cs, ce) =>
        if (seg.startT : ℤ) - ce ≤ gap then
          mergeLoop gap rest (some (cs, max ce seg.endT))
        else
          ⟨cs, ce, (ce : ℤ) - cs⟩ :: mergeLoop gap rest (some (seg.startT, seg.endT))

/-- One step of the source loop, accumulating `(active_periods, current)`. -/
def sessStep (gap : ℤ) (st : List ActivePeriod × Option (ℕ × ℕ)) (seg : Segment) :
    List ActivePeriod × Option (ℕ × ℕ) :=
  if seg.durSec ≤ 0 then st
  else
    match st.2 with
    | none => (st.1, some (seg.startT, seg.endT))
    | some (cs, ce) =>
      if (seg.startT : ℤ) - ce ≤ gap then (st.1, some (cs, max ce seg.endT))
      else (st.1 ++ [⟨cs, ce, (ce : ℤ) - cs⟩], some (seg.startT, seg.endT))

/-- `if current_period_start is not None: active_periods.append(...)`. -/
def finishSessions (st : List ActivePeriod × Option (ℕ × ℕ)) : List ActivePeriod :=
  match st.2 with
  | none => st.1
  | some (cs, ce) => st.1 ++ [⟨cs, ce, (ce : ℤ) - cs⟩]

theorem sessFold_eq_mergeLoop (gap : ℤ) (l : List Segment)
    (acc : List ActivePeriod) (cur : Option (ℕ × ℕ)) :
    finishSessions (l.foldl (sessStep gap) (acc, cur)) = acc ++ mergeLoop gap l cur := by
  induction l generalizing acc cur with
  | nil =>
      cases cur with
      | none => simp [finishSessions, mergeLoop]
      | some c => cases c; simp [finishSessions, mergeLoop]
  | cons seg rest ih =>
      simp only [List.foldl_cons, sessStep, mergeLoop]
      by_cases hd : seg.durSec ≤ 0
      · simp only [if_pos hd]
        exact ih acc cur
      · simp only [if_neg hd]
        cases cur with
        | none => exact ih acc _
        | some c =>
            obtain ⟨cs, ce⟩ := c
            by_cases hg : (seg.startT : ℤ) - ce ≤ gap
            · simp only [if_pos hg]
              exact ih acc _
            · simp only [if_neg hg]
              rw [ih]
              simp

/-- The sessions of `get_active_hours`: sort by start, run the merging loop
with `gap_threshold = 60`, emit the final period. -/
def activePeriodsOf (segs : List Segment) : List ActivePeriod :=
  finishSessions ((sortByStart segs).foldl (sessStep 60) ([], none))

theorem mergeLoop_some_spec (l : List Segment) (cs ce : ℕ)
    (hsort : l.Pairwise (fun a b => a.startT ≤ b.startT))
    (hwf : ∀ s ∈ l, wfSeg s)
    (hcs : ∀ s ∈ l, cs ≤ s.startT)
    (hce : cs ≤ ce) :
    (∀ p ∈ mergeLoop 60 l (some (cs, ce)), cs ≤ p.start ∧ p.start ≤ p.stop)
    ∧ (mergeLoop 60 l (some (cs, ce))).Pairwise
        (fun a b => (a.stop : ℤ) + 60 < (b.start : ℤ)) := by
  induction l generalizing cs ce with
  | nil =>
      constructor
      · intro p hp
        simp only [mergeLoop, List.mem_singleton] at hp
        subst hp
        exact ⟨le_refl _, hce⟩
      · simp [mergeLoop]
  | cons seg rest ih =>
      rcases List.pairwise_cons.mp hsort with ⟨hhead, hrest⟩
      have hwfr : ∀ s ∈ rest, wfSeg s := fun s hs => hwf s (List.mem_cons_of_mem _ hs)
      by_cases hd : seg.durSec ≤ 0
      · simp only [mergeLoop, if_pos hd]
        exact ih cs ce hrest hwfr (fun s hs => hcs s (List.mem_cons_of_mem _ hs)) hce
      · simp only [mergeLoop, if_neg hd]
        by_cases hg : (seg.startT : ℤ) - ce ≤ 60
        · simp only [if_pos hg]
          exact ih cs (max ce seg.endT) hrest hwfr
            (fun s hs => hcs s (List.mem_cons_of_mem _ hs))
            (le_trans hce (le_max_left _ _))
        · simp only [if_neg hg]
          have hse : seg.startT ≤ seg.endT := by
            have := hwf seg (List.mem_cons_self _ _)
            unfold wfSeg at this
            omega
          have hihr := ih seg.startT seg.endT hrest hwfr hhead hse
          constructor
          · intro p hp
            rcases List.mem_cons.mp hp with hp | hp
            · subst hp
              exact ⟨le_refl _, hce⟩
            · have h1 := (hihr.1 p hp).1
              have h2 := (hihr.1 p hp).2
              have h3 := hcs seg (List.mem_cons_self _ _)
              exact ⟨le_trans h3 h1, h2⟩
          · refine List.pairwise_cons.mpr ⟨?_, hihr.2⟩
            intro p hp
            have h1 := (hihr.1 p hp).1
            simp only
            push_cast
            omega

theorem mergeLoop_none_spec (l : List Segment)
    (hsort : l.Pairwise (fun a b => a.startT ≤ b.startT))
    (hwf : ∀ s ∈ l, wfSeg s) :
    (∀ p ∈ mergeLoop 60 l none, p.start ≤ p.stop)
    ∧ (mergeLoop 60 l none).Pairwise
        (fun a b => (a.stop : ℤ) + 60 < (b.start : ℤ)) := by
  induction l with
  | nil => simp [mergeLoop]
  | cons seg rest ih =>
      rcases List.pairwise_cons.mp hsort with ⟨hhead, hrest⟩
      have hwfr : ∀ s ∈ rest, wfSeg s := fun s hs => hwf s (List.mem_cons_of_mem _ hs)
      by_cases hd : seg.durSec ≤ 0
      · simp only [mergeLoop, if_pos hd]
        exact ih hrest hwfr
      · simp only [mergeLoop, if_neg hd]
        have hse : seg.startT ≤ seg.endT := by
          have := hwf seg (List.mem_cons_self _ _)
          unfold wfSeg at this
          omega
        have h := mergeLoop_some_spec rest seg.startT seg.endT hrest hwfr hhead hse
        exact ⟨fun p hp => (h.1 p hp).2, h.2⟩

/-- C2: for every input list of well-formed intervals, the sessions produced
by the merging loop (gap threshold 60 s) have `start ≤ end`, are mutually
non-overlapping, sorted by start ascending, and every pair of consecutive
sessions is separated by strictly more than 60 seconds. -/
theorem c2_session_invariants (segs : List Segment)
    (hwf : ∀ s ∈ segs, wfSeg s) :
    (∀ p ∈ activePeriodsOf segs, p.start ≤ p.stop)
    ∧ (activePeriodsOf segs).Pairwise (fun a b => a.stop < b.start)
    ∧ (activePeriodsOf segs).Pairwise (fun a b => a.start ≤ b.start)
    ∧ (activePeriodsOf segs).Chain'
        (fun a b => (60 : ℤ) < (b.start : ℤ) - (a.stop : ℤ)) := by
  have hsorted := sortByStart_sorted segs
  have hwfs : ∀ s ∈ sortByStart segs, wfSeg s :=
    fun s hs => hwf s ((sortByStart_perm segs).mem_iff.mp hs)
  have hact : activePeriodsOf segs = mergeLoop 60 (sortByStart segs) none := by
    unfold activePeriodsOf
    rw [sessFold_eq_mergeLoop]
    simp
  have hmain := mergeLoop_none_spec (sortByStart segs) hsorted hwfs
  rw [hact]
  refine ⟨hmain.1, ?_, ?_, ?_⟩
  · refine hmain.2.imp_of_mem ?_
    intro a b _ _ hab
    omega
  · refine hmain.2.imp_of_mem ?_
    intro a b ha _ hab
    have := hmain.1 a ha
    omega
  · refine List.Pairwise.chain' (hmain.2.imp_of_mem ?_)
    intro a b _ _ hab
    omega

theorem c2_session_invariants_witness :
    (∀ s ∈ [Segment.mk 32400 34200 none none none 1800,
            Segment.mk 34320 36000 none none none 1680], wfSeg s)
    ∧ ((∀ p ∈ activePeriodsOf [Segment.mk 32400 34200 none none none 1800,
            Segment.mk 34320 36000 none none none 1680], p.start ≤ p.stop)
      ∧ (activePeriodsOf [Segment.mk 32400 34200 none none none 1800,
            Segment.mk 34320 36000 none none none 1680]).Pairwise
          (fun a b => a.stop < b.start)
      ∧ (activePeriodsOf [Segment.mk 32400 34200 none none none 1800,
            Segment.mk 34320 36000 none none none 1680]).Pairwise
          (fun a b => a.start ≤ b.start)
      ∧ (activePeriodsOf [Segment.mk 32400 34200 none none none 1800,
            Segment.mk 34320 36000 none none none 1680]).Chain'
          (fun a b => (60 : ℤ) < (b.start : ℤ) - (a.stop : ℤ))) :=
  ⟨by decide, c2_session_invariants _ (by decide)⟩

/-! ## Dicts, truthiness, rounding

Python dicts preserve insertion order; they are modelled as association
lists where a missing key is appended at the tail. `round(x, 2)` is modelled
as rounding `x * 100` to the nearest integer (the claims under verification
do not depend on the tie-breaking rule of float `round`). -/

/-- Python truthiness of an optional string (`if window:`): false for
`None` and for the empty string. -/
def strTruthy : Option String → Bool
  | none => false
  | some s => s ≠ ""

/-- `event['calendar'] or 'Unknown'`. -/
def orUnknown : Option String → String
  | none => "Unknown"
  | some s => if s = "" then "Unknown" else s

/-- `d.setdefault(k, dflt); d[k] = f(d[k])` on an insertion-ordered dict. -/
def updDict {K V : Type} [DecidableEq K] (k : K) (dflt : V) (f : V → V) :
    List (K × V) → List (K × V)
  | [] => [(k, f dflt)]
  | (q, v) :: rest =>
    if q = k then (q, f v) :: rest else (q, v) :: updDict k dflt f rest

/-- `d[k] = d.get(k, 0) + v`. -/
def bump {K : Type} [DecidableEq K] (k : K) (v : ℤ) (m : List (K × ℤ)) :
    List (K × ℤ) :=
  updDict k 0 (· + v) m

/-- `d.get(k, dflt)`. -/
def lookupD {K V : Type} [DecidableEq K] (k : K) (dflt : V) :
    List (K × V) → V
  | [] => dflt
  | (q, v) :: rest => if q = k then v else lookupD k dflt rest

/-- `hourly[h] += v` on the pre-initialized 24-entry hour dict, modelled as a
function (its key set is fixed to `0..23`). -/
def addCredit (f : ℕ → ℤ) (p : ℕ × ℤ) : ℕ → ℤ :=
  fun x => if x = p.1 then f x + p.2 else f x

def addCredits (f : ℕ → ℤ) (cs : List (ℕ × ℤ)) : ℕ → ℤ :=
  cs.foldl addCredit f

/-- Apply a day-credit list to the lazily keyed day dict. -/
def applyCredits (m : List (ℕ × ℤ)) (cs : List (ℕ × ℤ)) : List (ℕ × ℤ) :=
  cs.foldl (fun m p => bump p.1 p.2 m) m

/-- Stable descending insertion by a key (`sorted(..., reverse=True)`): a
later element goes after earlier elements with an equal key. -/
def insertDesc {α β : Type} [LinearOrder β] (key : α → β) (x : α) :
    List α → List α
  | [] => [x]
  | y :: ys => if key x ≤ key y then y :: insertDesc key x ys else x :: y :: ys

def sortDesc {α β : Type} [LinearOrder β] (key : α → β) (l : List α) : List α :=
  l.foldl (fun acc x => insertDesc key x acc) []

/-- Stable ascending insertion by the numeric day key
(`sorted(daily_activity.items())`; keys are distinct). -/
def insertByKey (p : ℕ × ℤ) : List (ℕ × ℤ) → List (ℕ × ℤ)
  | [] => [p]
  | q :: qs => if q.1 ≤ p.1 then q :: insertByKey p qs else p :: q :: qs

def sortByKey (l : List (ℕ × ℤ)) : List (ℕ × ℤ) :=
  l.foldl (fun acc p => insertByKey p acc) []

/-- `round(x, 2)`. -/
def round2 (x : ℚ) : ℚ := (round (x * 100) : ℤ) / 100

/-! ## `get_active_hours` report -/

structure HourEntry where
  hour : ℕ
  seconds : ℤ
  hours : ℚ
deriving DecidableEq

structure DayEntry where
  date : ℕ
  seconds : ℤ
  hours : ℚ
deriving DecidableEq

structure ActiveHoursReport where
  hourlyActivity : List HourEntry
  dailyActivity : List DayEntry
  activePeriods : List ActivePeriod
  totalActiveSeconds : ℤ
  totalActiveHours : ℚ
  avgSessionSeconds : ℚ
  avgSessionMinutes : ℚ
  sessionCount : ℕ
deriving DecidableEq

/-- Hour bucketing of the `get_active_hours` loop (the loop interleaves the
hour, day and session updates over the same iteration; the state components
are independent, so they are folded separately here). -/
def ahHourly (segs : List Segment) : ℕ → ℤ :=
  segs.foldl
    (fun f s => if s.durSec ≤ 0 then f
      else addCredits f (creditHours s.startT s.endT s.durSec))
    (fun _ => 0)

def ahDaily (segs : List Segment) : List (ℕ × ℤ) :=
  segs.foldl
    (fun m s => if s.durSec ≤ 0 then m
      else applyCredits m (creditDays s.startT s.endT s.durSec))
    []

def activeHoursReport (segs : List Segment) : ActiveHoursReport :=
  let sorted := sortByStart segs
  let hourlyF := ahHourly sorted
  let daily := ahDaily sorted
  let periods := finishSessions (sorted.foldl (sessStep 60) ([], none))
  let totalActive : ℤ := (periods.map (·.durationSeconds)).sum
  let avg : ℚ := if periods.length ≠ 0 then (totalActive : ℚ) / periods.length else 0
  { hourlyActivity :=
      (List.range 24).map (fun h => ⟨h, hourlyF h, round2 ((hourlyF h : ℚ) / 3600)⟩)
    dailyActivity :=
      (sortByKey daily).map (fun p => ⟨p.1, p.2, round2 ((p.2 : ℚ) / 3600)⟩)
    activePeriods := periods
    totalActiveSeconds := totalActive
    totalActiveHours := round2 ((totalActive : ℚ) / 3600)
    avgSessionSeconds := round2 avg
    avgSessionMinutes := round2 (avg / 60)
    sessionCount := periods.length }

/-! ## `get_app_usage` report -/

/-- Per-app accumulator: `{'total_seconds', 'window_count', 'windows'}`. -/
structure AppData where
  total : ℤ
  windowCount : ℕ
  windows : List (String × ℤ)
deriving DecidableEq

/-- Per-app update for one positive-duration segment: add the duration, and
— only when the window name is truthy — count the window once and add its
duration to the window map. -/
def appStepF (s : Segment) (d : AppData) : AppData :=
  let d1 : AppData := ⟨d.total + s.durSec, d.windowCount, d.windows⟩
  match s.window with
  | none => d1
  | some w =>
    if w = "" then d1
    else ⟨d1.total,
      if d1.windows.any (fun q => q.1 = w) then d1.windowCount
      else d1.windowCount + 1,
      bump w s.durSec d1.windows⟩

/-- One iteration of the app/window accumulation for a positive-duration
segment: ensure the app entry, then apply `appStepF`. -/
def appStep (m : List (Option String × AppData)) (s : Segment) :
    List (Option String × AppData) :=
  updDict s.app ⟨0, 0, []⟩ (appStepF s) m

def appUsageDict (segs : List Segment) : List (Option String × AppData) :=
  segs.foldl (fun m s => if s.durSec ≤ 0 then m else appStep m s) []

/-- `if name:` guard plus `d[name] = d.get(name, 0) + v` — the shared shape
of the window-usage and browser-URL accumulations. -/
def urlStep (m : List (String × ℤ)) (o : Option String) (v : ℤ) :
    List (String × ℤ) :=
  match o with
  | none => m
  | some b => if b = "" then m else bump b v m

def windowUsageDict (segs : List Segment) : List (String × ℤ) :=
  segs.foldl
    (fun m s => if s.durSec ≤ 0 then m else urlStep m s.window s.durSec) []

def browserUsageDict (segs : List Segment) : List (String × ℤ) :=
  segs.foldl
    (fun m s => if s.durSec ≤ 0 then m else urlStep m s.browserUrl s.durSec) []

def appHourly (segs : List Segment) : ℕ → ℤ :=
  segs.foldl
    (fun f s => if s.durSec ≤ 0 then f
      else addCredits f (creditHoursApp s.startT s.endT s.durSec))
    (fun _ => 0)

structure WindowStat where
  name : String
  hours : ℚ
  percentage : ℚ
deriving DecidableEq

structure AppStat where
  name : Option String
  hours : ℚ
  percentage : ℚ
  windowCount : ℕ
  topWindows : List WindowStat
deriving DecidableEq

structure URLStat where
  url : String
  hours : ℚ
  percentage : ℚ
deriving DecidableEq

structure AppHourEntry where
  hour : ℕ
  hours : ℚ
  percentage : ℚ
deriving DecidableEq

structure AppUsageReport where
  topApps : List AppStat
  topUrls : List URLStat
  hourlyActivity : List AppHourEntry
  totalApps : ℕ
  totalWindows : ℕ
  totalUrls : ℕ
  totalHours : ℚ
deriving DecidableEq

def appUsageReport (segs : List Segment) : AppUsageReport :=
  let appU := appUsageDict segs
  let winU := windowUsageDict segs
  let brU := browserUsageDict segs
  let hourlyF := appHourly segs
  let sortedApps := sortDesc (fun p => p.2.total) appU
  let totalDuration : ℤ :=
    if sortedApps.isEmpty then 1 else (sortedApps.map (fun p => p.2.total)).sum
  let topApps := (sortedApps.take 10).map (fun p =>
    let sortedWins := sortDesc (fun q => q.2) p.2.windows
    let topWins := (sortedWins.take 5).map (fun q =>
      WindowStat.mk q.1 (round2 ((q.2 : ℚ) / 3600))
        (if p.2.total > 0 then round2 ((q.2 : ℚ) / (p.2.total : ℚ) * 100) else 0))
    AppStat.mk p.1 (round2 ((p.2.total : ℚ) / 3600))
      (round2 ((p.2.total : ℚ) / (totalDuration : ℚ) * 100))
      p.2.windowCount topWins)
  let topUrls := ((sortDesc (fun q => q.2) brU).take 10).map (fun q =>
    URLStat.mk q.1 (round2 ((q.2 : ℚ) / 3600))
      (round2 ((q.2 : ℚ) / (totalDuration : ℚ) * 100)))
  let hourly := (List.range 24).map (fun h =>
    AppHourEntry.mk h (round2 ((hourlyF h : ℚ) / 3600))
      (if totalDuration > 0 then round2 ((hourlyF h : ℚ) / (totalDuration : ℚ) * 100)
       else 0))
  { topApps := topApps
    topUrls := topUrls
    hourlyActivity := hourly
    totalApps := appU.length
    totalWindows := winU.length
    totalUrls := brU.length
    totalHours := round2 ((totalDuration : ℚ) / 3600) }

/-! ## `get_meetings` report -/

/-- One row of `get_events`: `calendarName` may be `NULL`. -/
structure Event where
  startT : ℕ
  endT : ℕ
  calendar : Option String
  durSec : ℤ
deriving DecidableEq

def wfEvent (e : Event) : Prop := e.durSec = (e.endT : ℤ) - e.startT

instance (e : Event) : Decidable (wfEvent e) := by
  unfold wfEvent
  infer_instance

/-- Per-calendar accumulator: `{'event_count', 'total_seconds'}` (the source
also appends the raw event to `stats['events']`, which never reaches the
returned report and is omitted). -/
structure CalData where
  eventCount : ℕ
  totalSeconds : ℤ
deriving DecidableEq

def calStep (m : List (String × CalData)) (e : Event) : List (String × CalData) :=
  updDict (orUnknown e.calendar) ⟨0, 0⟩
    (fun d => ⟨d.eventCount + 1, d.totalSeconds + e.durSec⟩) m

def calDict (evs : List Event) : List (String × CalData) :=
  evs.foldl (fun m e => if e.durSec ≤ 0 then m else calStep m e) []

def meetTotal (evs : List Event) : ℤ :=
  evs.foldl (fun t e => if e.durSec ≤ 0 then t else t + e.durSec) 0

def meetDaily (evs : List Event) : List (ℕ × ℤ) :=
  evs.foldl
    (fun m e => if e.durSec ≤ 0 then m
      else applyCredits m (creditDays e.startT e.endT e.durSec))
    []

def meetHourly (evs : List Event) : ℕ → ℤ :=
  evs.foldl
    (fun f e => if e.durSec ≤ 0 then f
      else addCredits f (creditHours e.startT e.endT e.durSec))
    (fun _ => 0)

structure CalStat where
  calendar : String
  eventCount : ℕ
  hours : ℚ
  percentage : ℚ
deriving DecidableEq

structure MeetingsReport where
  events : List Event
  calendarStats : List CalStat
  dailyMeetingHours : List DayEntry
  hourlyDistribution : List HourEntry
  totalEvents : ℕ
  totalSeconds : ℤ
  totalHours : ℚ
  avgMeetingSeconds : ℚ
  avgMeetingMinutes : ℚ
deriving DecidableEq

def meetingsReport (evs : List Event) : MeetingsReport :=
  let total := meetTotal evs
  let calList := (calDict evs).map (fun p =>
    CalStat.mk p.1 p.2.eventCount (round2 ((p.2.totalSeconds : ℚ) / 3600))
      (if total > 0 then round2 ((p.2.totalSeconds : ℚ) / (total : ℚ) * 100) else 0))
  let calSorted := sortDesc (fun s => s.hours) calList
  let daily := (sortByKey (meetDaily evs)).map
    (fun p => DayEntry.mk p.1 p.2 (round2 ((p.2 : ℚ) / 3600)))
  let hourlyF := meetHourly evs
  let hourly := (List.range 24).map
    (fun h => HourEntry.mk h (hourlyF h) (round2 ((hourlyF h : ℚ) / 3600)))
  let avg : ℚ := if evs.length ≠ 0 then (total : ℚ) / evs.length else 0
  { events := evs
    calendarStats := calSorted
    dailyMeetingHours := daily
    hourlyDistribution := hourly
    totalEvents := evs.length
    totalSeconds := total
    totalHours := round2 ((total : ℚ) / 3600)
    avgMeetingSeconds := round2 avg
    avgMeetingMinutes := round2 (avg / 60) }

/-- C6: each of the three report builders, on the empty interval list,
returns 24 zero-valued hour buckets for hours 0–23, empty day/category
lists, and all-zero summary scalars, without any failure path. -/
theorem c6_empty_reports :
    (activeHoursReport []).hourlyActivity
        = (List.range 24).map (fun h => HourEntry.mk h 0 0)
    ∧ (activeHoursReport []).dailyActivity = []
    ∧ (activeHoursReport []).activePeriods = []
    ∧ (activeHoursReport []).totalActiveSeconds = 0
    ∧ (activeHoursReport []).totalActiveHours = 0
    ∧ (activeHoursReport []).avgSessionSeconds = 0
    ∧ (activeHoursReport []).avgSessionMinutes = 0
    ∧ (activeHoursReport []).sessionCount = 0
    ∧ (appUsageReport []).hourlyActivity
        = (List.range 24).map (fun h => AppHourEntry.mk h 0 0)
    ∧ (appUsageReport []).topApps = []
    ∧ (appUsageReport []).topUrls = []
    ∧ (appUsageReport []).totalApps = 0
    ∧ (appUsageReport []).totalWindows = 0
    ∧ (appUsageReport []).totalUrls = 0
    ∧ (appUsageReport []).totalHours = 0
    ∧ (meetingsReport []).hourlyDistribution
        = (List.range 24).map (fun h => HourEntry.mk h 0 0)
    ∧ (meetingsReport []).events = []
    ∧ (meetingsReport []).calendarStats = []
    ∧ (meetingsReport []).dailyMeetingHours = []
    ∧ (meetingsReport []).totalEvents = 0
    ∧ (meetingsReport []).totalSeconds = 0
    ∧ (meetingsReport []).totalHours = 0
    ∧ (meetingsReport []).avgMeetingSeconds = 0
    ∧ (meetingsReport []).avgMeetingMinutes = 0 := by
  refine ⟨?_, ?_, ?_, ?_, ?_, ?_, ?_, ?_, ?_, ?_, ?_, ?_, ?_, ?_, ?_, ?_, ?_,
    ?_, ?_, ?_, ?_, ?_, ?_, ?_⟩ <;>
    norm_num [activeHoursReport, appUsageReport, meetingsReport, ahHourly,
      ahDaily, sortByStart, appUsageDict, windowUsageDict, browserUsageDict,
      urlStep, appHourly, calDict, meetTotal, meetDaily, meetHourly, sortByKey,
      sortDesc, finishSessions, round2, round_eq]

/-- Appending an element at the end and then stably sorting is the same as
inserting it into the sorted rest. -/
theorem sortByStart_append_single (l : List Segment) (z : Segment) :
    sortByStart (l ++ [z]) = insertByStart z (sortByStart l) := by
  unfold sortByStart
  rw [List.foldl_append]
  rfl

/-- A fold whose step ignores `z` is unchanged by inserting `z` anywhere. -/
theorem foldl_insert_skip {β : Type} (f : β → Segment → β) (z : Segment)
    (hz : ∀ st, f st z = st) (l : List Segment) (init : β) :
    (insertByStart z l).foldl f init = l.foldl f init := by
  induction l generalizing init with
  | nil => simp [insertByStart, hz]
  | cons t ts ih =>
      by_cases h : t.startT ≤ z.startT
      · simp only [insertByStart, if_pos h, List.foldl_cons]
        exact ih (f init t)
      · simp only [insertByStart, if_neg h, List.foldl_cons, hz]

/-- C4 counterexample: appending the zero-duration event `18:00–18:00` (here
`1800–1800`) to a one-event list leaves every bucket and calendar stat
unchanged but raises `total_events` from 1 to 2 and halves
`avg_meeting_seconds` (the average divides by the raw event count), so the
meetings report is not unchanged. -/
theorem c4_counterexample :
    (meetingsReport [Event.mk 0 1800 (some "Work") 1800,
        Event.mk 1800 1800 (some "Work") 0]).totalEvents = 2
    ∧ (meetingsReport [Event.mk 0 1800 (some "Work") 1800]).totalEvents = 1
    ∧ (meetingsReport [Event.mk 0 1800 (some "Work") 1800,
        Event.mk 1800 1800 (some "Work") 0]).avgMeetingSeconds = 900
    ∧ (meetingsReport [Event.mk 0 1800 (some "Work") 1800]).avgMeetingSeconds = 1800
    ∧ (Event.mk 1800 1800 (some "Work") (0 : ℤ)).startT
        = (Event.mk 1800 1800 (some "Work") (0 : ℤ)).endT := by
  refine ⟨rfl, rfl, ?_, ?_, rfl⟩ <;>
    norm_num [meetingsReport, meetTotal, round2, round_eq]

/-- C4 amended: appending a zero-duration interval (`start == end`, so
`duration_seconds = 0`) leaves the app-usage and active-hours reports
entirely unchanged (it enters no bucket, session or total), and in the
meetings report leaves the calendar stats, day and hour buckets and total
duration unchanged — but it is included in the raw `events` list, increments
`total_events`, and thereby lowers the meeting average, which divides by the
raw event count. -/
theorem c4_amended (segs : List Segment) (z : Segment)
    (hz0 : z.startT = z.endT) (hzw : wfSeg z)
    (evs : List Event) (w : Event)
    (hw0 : w.startT = w.endT) (hww : wfEvent w) :
    appUsageReport (segs ++ [z]) = appUsageReport segs
    ∧ activeHoursReport (segs ++ [z]) = activeHoursReport segs
    ∧ (meetingsReport (evs ++ [w])).calendarStats = (meetingsReport evs).calendarStats
    ∧ (meetingsReport (evs ++ [w])).dailyMeetingHours
        = (meetingsReport evs).dailyMeetingHours
    ∧ (meetingsReport (evs ++ [w])).hourlyDistribution
        = (meetingsReport evs).hourlyDistribution
    ∧ (meetingsReport (evs ++ [w])).totalSeconds = (meetingsReport evs).totalSeconds
    ∧ (meetingsReport (evs ++ [w])).totalHours = (meetingsReport evs).totalHours
    ∧ (meetingsReport (evs ++ [w])).totalEvents = (meetingsReport evs).totalEvents + 1
    ∧ (meetingsReport (evs ++ [w])).events = evs ++ [w] := by
  have hz : z.durSec ≤ 0 := by
    unfold wfSeg at hzw
    omega
  have hw : w.durSec ≤ 0 := by
    unfold wfEvent at hww
    omega
  have happ : appUsageReport (segs ++ [z]) = appUsageReport segs := by
    have h1 : appUsageDict (segs ++ [z]) = appUsageDict segs := by
      unfold appUsageDict
      rw [List.foldl_append]
      simp [hz]
    have h2 : windowUsageDict (segs ++ [z]) = windowUsageDict segs := by
      unfold windowUsageDict
      rw [List.foldl_append]
      simp [hz]
    have h3 : browserUsageDict (segs ++ [z]) = browserUsageDict segs := by
      unfold browserUsageDict
      rw [List.foldl_append]
      simp [hz]
    have h4 : appHourly (segs ++ [z]) = appHourly segs := by
      unfold appHourly
      rw [List.foldl_append]
      simp [hz]
    unfold appUsageReport
    rw [h1, h2, h3, h4]
  have hah : activeHoursReport (segs ++ [z]) = activeHoursReport segs := by
    have hsorted := sortByStart_append_single segs z
    have h1 : ahHourly (sortByStart (segs ++ [z])) = ahHourly (sortByStart segs) := by
      rw [hsorted]
      exact foldl_insert_skip _ z (fun st => by simp [hz]) _ _
    have h2 : ahDaily (sortByStart (segs ++ [z])) = ahDaily (sortByStart segs) := by
      rw [hsorted]
      exact foldl_insert_skip _ z (fun st => by simp [hz]) _ _
    have h3 : (sortByStart (segs ++ [z])).foldl (sessStep 60) ([], none)
        = (sortByStart segs).foldl (sessStep 60) ([], none) := by
      rw [hsorted]
      exact foldl_insert_skip _ z (fun st => by simp [sessStep, hz]) _ _
    simp only [activeHoursReport]
    rw [h1, h2, h3]
  have hcal : calDict (evs ++ [w]) = calDict evs := by
    unfold calDict
    rw [List.foldl_append]
    simp [hw]
  have hdaily : meetDaily (evs ++ [w]) = meetDaily evs := by
    unfold meetDaily
    rw [List.foldl_append]
    simp [hw]
  have hhour : meetHourly (evs ++ [w]) = meetHourly evs := by
    unfold meetHourly
    rw [List.foldl_append]
    simp [hw]
  have htot : meetTotal (evs ++ [w]) = meetTotal evs := by
    unfold meetTotal
    rw [List.foldl_append]
    simp [hw]
  refine ⟨happ, hah, ?_, ?_, ?_, ?_, ?_, ?_, ?_⟩ <;>
    simp [meetingsReport, hcal, hdaily, hhour, htot]

theorem c4_amended_witness :
    ((Segment.mk 1800 1800 (some "App") none none 0).startT
        = (Segment.mk 1800 1800 (some "App") none none 0).endT
      ∧ wfSeg (Segment.mk 1800 1800 (some "App") none none 0)
      ∧ (Event.mk 1800 1800 (some "Work") 0).startT
        = (Event.mk 1800 1800 (some "Work") 0).endT
      ∧ wfEvent (Event.mk 1800 1800 (some "Work") 0))
    ∧ (appUsageReport ([Segment.mk 0 1800 (some "App") (some "Win") none 1800]
          ++ [Segment.mk 1800 1800 (some "App") none none 0])
        = appUsageReport [Segment.mk 0 1800 (some "App") (some "Win") none 1800]
      ∧ activeHoursReport ([Segment.mk 0 1800 (some "App") (some "Win") none 1800]
          ++ [Segment.mk 1800 1800 (some "App") none none 0])
        = activeHoursReport [Segment.mk 0 1800 (some "App") (some "Win") none 1800]
      ∧ (meetingsReport ([Event.mk 0 1800 (some "Work") 1800]
          ++ [Event.mk 1800 1800 (some "Work") 0])).calendarStats
        = (meetingsReport [Event.mk 0 1800 (some "Work") 1800]).calendarStats
      ∧ (meetingsReport ([Event.mk 0 1800 (some "Work") 1800]
          ++ [Event.mk 1800 1800 (some "Work") 0])).dailyMeetingHours
        = (meetingsReport [Event.mk 0 1800 (some "Work") 1800]).dailyMeetingHours
      ∧ (meetingsReport ([Event.mk 0 1800 (some "Work") 1800]
          ++ [Event.mk 1800 1800 (some "Work") 0])).hourlyDistribution
        = (meetingsReport [Event.mk 0 1800 (some "Work") 1800]).hourlyDistribution
      ∧ (meetingsReport ([Event.mk 0 1800 (some "Work") 1800]
          ++ [Event.mk 1800 1800 (some "Work") 0])).totalSeconds
        = (meetingsReport [Event.mk 0 1800 (some "Work") 1800]).totalSeconds
      ∧ (meetingsReport ([Event.mk 0 1800 (some "Work") 1800]
          ++ [Event.mk 1800 1800 (some "Work") 0])).totalHours
        = (meetingsReport [Event.mk 0 1800 (some "Work") 1800]).totalHours
      ∧ (meetingsReport ([Event.mk 0 1800 (some "Work") 1800]
          ++ [Event.mk 1800 1800 (some "Work") 0])).totalEvents
        = (meetingsReport [Event.mk 0 1800 (some "Work") 1800]).totalEvents + 1
      ∧ (meetingsReport ([Event.mk 0 1800 (some "Work") 1800]
          ++ [Event.mk 1800 1800 (some "Work") 0])).events
        = [Event.mk 0 1800 (some "Work") 1800] ++ [Event.mk 1800 1800 (some "Work") 0]) :=
  ⟨⟨rfl, by decide, rfl, by decide⟩,
    c4_amended [Segment.mk 0 1800 (some "App") (some "Win") none 1800]
      (Segment.mk 1800 1800 (some "App") none none 0) rfl (by decide)
      [Event.mk 0 1800 (some "Work") 1800]
      (Event.mk 1800 1800 (some "Work") 0) rfl (by decide)⟩

/-- A fold over a mapped list whose step cannot see the mapping. -/
theorem foldl_map_step {α β : Type} (g : β → β) (f : α → β → α)
    (hf : ∀ a b, f a (g b) = f a b) (l : List β) (init : α) :
    (l.map g).foldl f init = l.foldl f init := by
  induction l generalizing init with
  | nil => rfl
  | cons x xs ih =>
      simp only [List.map_cons, List.foldl_cons, hf]
      exact ih (f init x)

/-- Replacing an event's calendar by its normalized name
(`calendar or 'Unknown'`). -/
def normEvent (e : Event) : Event :=
  ⟨e.startT, e.endT, some (orUnknown e.calendar), e.durSec⟩

theorem orUnknown_idem (c : Option String) :
    orUnknown (some (orUnknown c)) = orUnknown c := by
  cases c with
  | none => decide
  | some s =>
      by_cases h : s = ""
      · simp [orUnknown, h]
      · simp [orUnknown, h]

/-- C8 counterexample: `get_app_usage` does not normalize null/empty
application names — a `None`-named and an empty-named segment form two
distinct groups instead of one `"Unknown"` group. -/
theorem c8_counterexample :
    (appUsageReport [Segment.mk 0 600 none none none 600,
        Segment.mk 600 1200 (some "") none none 600]).totalApps = 2
    ∧ ((appUsageReport [Segment.mk 0 600 none none none 600,
        Segment.mk 600 1200 (some "") none none 600]).topApps.map
          (fun a => a.name)) = [none, some ""] := by
  constructor
  · rfl
  · rfl

/-- C8 amended: `get_meetings` normalizes a `None`/empty calendar name to
the literal `"Unknown"` before grouping (so null-named events aggregate into
one `"Unknown"` group and the report is invariant under that normalization),
but `get_app_usage` performs no such normalization: the raw application
value is the group key, so `None`-named and empty-named apps form distinct
groups. -/
theorem c8_amended (evs : List Event) :
    orUnknown none = "Unknown"
    ∧ orUnknown (some "") = "Unknown"
    ∧ (meetingsReport (evs.map normEvent)).calendarStats
        = (meetingsReport evs).calendarStats
    ∧ (meetingsReport (evs.map normEvent)).dailyMeetingHours
        = (meetingsReport evs).dailyMeetingHours
    ∧ (meetingsReport (evs.map normEvent)).hourlyDistribution
        = (meetingsReport evs).hourlyDistribution
    ∧ (meetingsReport (evs.map normEvent)).totalSeconds
        = (meetingsReport evs).totalSeconds
    ∧ (meetingsReport (evs.map normEvent)).totalEvents
        = (meetingsReport evs).totalEvents
    ∧ (meetingsReport (evs.map normEvent)).avgMeetingSeconds
        = (meetingsReport evs).avgMeetingSeconds
    ∧ (appUsageReport [Segment.mk 0 600 none none none 600,
        Segment.mk 600 1200 (some "") none none 600]).totalApps = 2 := by
  have hcal : calDict (evs.map normEvent) = calDict evs := by
    unfold calDict
    apply foldl_map_step
    intro m e
    simp [normEvent, calStep, orUnknown_idem]
  have hdaily : meetDaily (evs.map normEvent) = meetDaily evs := by
    unfold meetDaily
    apply foldl_map_step
    intro m e
    simp [normEvent]
  have hhour : meetHourly (evs.map normEvent) = meetHourly evs := by
    unfold meetHourly
    apply foldl_map_step
    intro m e
    simp [normEvent]
  have htot : meetTotal (evs.map normEvent) = meetTotal evs := by
    unfold meetTotal
    apply foldl_map_step
    intro m e
    simp [normEvent]
  have hlen : (evs.map normEvent).length = evs.length := List.length_map _ _
  refine ⟨by decide, by decide, ?_, ?_, ?_, ?_, ?_, ?_, rfl⟩ <;>
    simp [meetingsReport, hcal, hdaily, hhour, htot, hlen]

/-! ## Time-window resolution (C9)

The three entry points share `if start_time and end_time:` (Python
datetimes are always truthy, so this tests that both are non-`None`). The
relative branch computes `start_time = now - delta` and fetches
`(start_time, now)`; `get_active_hours`/`get_meetings` also reassign
`end_time = now`, while `get_app_usage` leaves `end_time` as supplied and
reports `end_time if end_time else now` in `time_range`. Each function
returns `(fetch window, reported time_range)`. -/

def resolveWindowApp (s? e? : Option ℤ) (delta now : ℤ) : (ℤ × ℤ) × (ℤ × ℤ) :=
  match s?, e? with
  | some s, some e => ((s, e), (s, e))
  | _, _ =>
    ((now - delta, now),
      (now - delta, match e? with | some e => e | none => now))

def resolveWindowActive (s? e? : Option ℤ) (delta now : ℤ) : (ℤ × ℤ) × (ℤ × ℤ) :=
  match s?, e? with
  | some s, some e => ((s, e), (s, e))
  | _, _ => ((now - delta, now), (now - delta, now))

def resolveWindowMeet (s? e? : Option ℤ) (delta now : ℤ) : (ℤ × ℤ) × (ℤ × ℤ) :=
  match s?, e? with
  | some s, some e => ((s, e), (s, e))
  | _, _ => ((now - delta, now), (now - delta, now))

/-- C9: whenever start and end are not both supplied, all three entry points
take the relative branch: the window actually queried is
`[now - delta, now]` — any single supplied bound is ignored — the resolved
start is `now - delta` in every report, and with all relative amounts zero
the window degenerates to `[now, now)`. -/
theorem c9_relative_branch (s? e? : Option ℤ) (delta now : ℤ)
    (h : ¬ (s?.isSome = true ∧ e?.isSome = true)) :
    (resolveWindowApp s? e? delta now).1 = (now - delta, now)
    ∧ (resolveWindowActive s? e? delta now).1 = (now - delta, now)
    ∧ (resolveWindowMeet s? e? delta now).1 = (now - delta, now)
    ∧ (resolveWindowApp s? e? delta now).2.1 = now - delta
    ∧ (resolveWindowActive s? e? delta now).2 = (now - delta, now)
    ∧ (resolveWindowMeet s? e? delta now).2 = (now - delta, now)
    ∧ (delta = 0 → (resolveWindowApp s? e? delta now).1 = (now, now)) := by
  cases s? with
  | none =>
      cases e? with
      | none =>
          refine ⟨rfl, rfl, rfl, rfl, rfl, rfl, ?_⟩
          intro hd
          simp [resolveWindowApp, hd]
      | some e =>
          refine ⟨rfl, rfl, rfl, rfl, rfl, rfl, ?_⟩
          intro hd
          simp [resolveWindowApp, hd]
  | some s =>
      cases e? with
      | none =>
          refine ⟨rfl, rfl, rfl, rfl, rfl, rfl, ?_⟩
          intro hd
          simp [resolveWindowApp, hd]
      | some e => exact absurd ⟨rfl, rfl⟩ h

theorem c9_relative_branch_witness :
    ¬ ((some (500 : ℤ)).isSome = true ∧ (none : Option ℤ).isSome = true)
    ∧ ((resolveWindowApp (some 500) none 0 1000).1 = (1000 - 0, 1000)
      ∧ (resolveWindowActive (some 500) none 0 1000).1 = (1000 - 0, 1000)
      ∧ (resolveWindowMeet (some 500) none 0 1000).1 = (1000 - 0, 1000)
      ∧ (resolveWindowApp (some 500) none 0 1000).2.1 = 1000 - 0
      ∧ (resolveWindowActive (some 500) none 0 1000).2 = (1000 - 0, 1000)
      ∧ (resolveWindowMeet (some 500) none 0 1000).2 = (1000 - 0, 1000)
      ∧ ((0 : ℤ) = 0 → (resolveWindowApp (some 500) none 0 1000).1 = (1000, 1000))) :=
  ⟨by decide, c9_relative_branch (some 500) none 0 1000 (by decide)⟩

theorem mem_updDict_keys {K V : Type} [DecidableEq K] (k : K) (dflt : V)
    (f : V → V) (m : List (K × V)) :
    ∀ p ∈ updDict k dflt f m, p.1 = k ∨ p.1 ∈ m.map Prod.fst := by
  induction m with
  | nil =>
      intro p hp
      simp only [updDict, List.mem_singleton] at hp
      subst hp
      exact Or.inl rfl
  | cons q rest ih =>
      obtain ⟨qk, qv⟩ := q
      intro p hp
      simp only [updDict] at hp
      by_cases hq : qk = k
      · rw [if_pos hq] at hp
        rcases List.mem_cons.mp hp with hp | hp
        · subst hp; exact Or.inl hq
        · exact Or.inr (by simp [List.mem_cons.mpr (Or.inr (List.mem_map_of_mem Prod.fst hp))])
      · rw [if_neg hq] at hp
        rcases List.mem_cons.mp hp with hp | hp
        · subst hp; simp
        · rcases ih p hp with h | h
          · exact Or.inl h
          · right; simp [h]

theorem updDict_values {K V : Type} [DecidableEq K] (Q : V → Prop) (k : K)
    (dflt : V) (f : V → V) (m : List (K × V))
    (hm : ∀ p ∈ m, Q p.2) (hf : ∀ v, Q v → Q (f v)) (hd : Q dflt) :
    ∀ p ∈ updDict k dflt f m, Q p.2 := by
  induction m with
  | nil =>
      intro p hp
      simp only [updDict, List.mem_singleton] at hp
      subst hp
      exact hf dflt hd
  | cons q rest ih =>
      obtain ⟨qk, qv⟩ := q
      intro p hp
      simp only [updDict] at hp
      by_cases hq : qk = k
      · rw [if_pos hq] at hp
        rcases List.mem_cons.mp hp with hp | hp
        · subst hp; exact hf qv (hm (qk, qv) (List.mem_cons_self _ _))
        · exact hm p (List.mem_cons_of_mem _ hp)
      · rw [if_neg hq] at hp
        rcases List.mem_cons.mp hp with hp | hp
        · subst hp; exact hm (qk, qv) (List.mem_cons_self _ _)
        · exact ih (fun r hr => hm r (List.mem_cons_of_mem _ hr)) p hp

theorem insertDesc_perm {α β : Type} [LinearOrder β] (key : α → β) (x : α)
    (l : List α) : List.Perm (insertDesc key x l) (x :: l) := by
  induction l with
  | nil => simp [insertDesc]
  | cons y ys ih =>
      by_cases h : key x ≤ key y
      · simp only [insertDesc, if_pos h]
        exact List.Perm.trans (List.Perm.cons y ih) (List.Perm.swap x y ys)
      · simp [insertDesc, if_neg h]

theorem sortDesc_perm {α β : Type} [LinearOrder β] (key : α → β) (l : List α) :
    List.Perm (sortDesc key l) l := by
  suffices h : ∀ acc : List α,
      List.Perm (l.foldl (fun acc x => insertDesc key x acc) acc) (acc ++ l) by
    simpa using h []
  induction l with
  | nil => simp
  | cons t ts ih =>
      intro acc
      simp only [List.foldl_cons]
      refine List.Perm.trans (ih (insertDesc key t acc)) ?_
      refine List.Perm.trans (List.Perm.append_right ts (insertDesc_perm key t acc)) ?_
      simp only [List.cons_append]
      exact (List.perm_middle).symm

/-- Every window key accumulated by `get_app_usage` is a truthy (non-empty)
string: segments with a `None`/empty window never enter any windows map. -/
theorem appUsageDict_window_keys (segs : List Segment) :
    ∀ p ∈ appUsageDict segs, ∀ q ∈ p.2.windows, q.1 ≠ "" := by
  suffices h : ∀ (m : List (Option String × AppData)),
      (∀ p ∈ m, ∀ q ∈ p.2.windows, q.1 ≠ "") →
      ∀ p ∈ segs.foldl (fun m s => if s.durSec ≤ 0 then m else appStep m s) m,
        ∀ q ∈ p.2.windows, q.1 ≠ "" by
    exact h [] (by simp)
  induction segs with
  | nil => intro m hm; simpa using hm
  | cons s rest ih =>
      intro m hm
      simp only [List.foldl_cons]
      by_cases hd : s.durSec ≤ 0
      · rw [if_pos hd]
        exact ih m hm
      · rw [if_neg hd]
        refine ih (appStep m s) ?_
        unfold appStep
        refine updDict_values (fun d => ∀ q ∈ d.windows, q.1 ≠ "")
          s.app ⟨0, 0, []⟩ _ m hm ?_ (by simp)
        intro v hv
        unfold appStepF
        cases hw : s.window with
        | none => simpa using hv
        | some w =>
            by_cases hwe : w = ""
            · simpa [hwe] using hv
            · simp only [if_neg hwe]
              intro q hq
              rcases mem_updDict_keys w 0 (· + s.durSec) v.windows q hq with h1 | h1
              · rw [h1]; exact hwe
              · rcases List.mem_map.mp h1 with ⟨q', hq', hq'eq⟩
                rw [← hq'eq]
                exact hv q' hq'

/-- C10: a positive-duration segment whose window name is `None` or empty is
excluded from all window statistics — the window-usage dict, every windows
map, every window count and `total_windows` are unchanged — while its
duration still counts toward its app's total; consequently an app's
top-window percentages can sum to less than 100 (50 in the concrete
two-segment run below). -/
theorem c10_null_window_excluded (segs : List Segment) (z : Segment)
    (hzw : strTruthy z.window = false) (hzd : 0 < z.durSec) :
    windowUsageDict (segs ++ [z]) = windowUsageDict segs
    ∧ (appUsageReport (segs ++ [z])).totalWindows
        = (appUsageReport segs).totalWindows
    ∧ appUsageDict (segs ++ [z])
        = updDict z.app ⟨0, 0, []⟩
            (fun d => ⟨d.total + z.durSec, d.windowCount, d.windows⟩)
            (appUsageDict segs)
    ∧ (∀ stat ∈ (appUsageReport (segs ++ [z])).topApps,
        ∀ ws ∈ stat.topWindows, ws.name ≠ "")
    ∧ ((appUsageReport [Segment.mk 0 1800 (some "A") (some "w") none 1800,
          Segment.mk 1800 3600 (some "A") none none 1800]).topApps.map
        (fun a => (a.topWindows.map (fun ws => ws.percentage)).sum)) = [50] := by
  have hwin : z.window = none ∨ z.window = some "" := by
    cases hw : z.window with
    | none => exact Or.inl rfl
    | some w =>
        rw [hw] at hzw
        simp only [strTruthy, decide_eq_false_iff_not, not_not] at hzw
        exact Or.inr (by rw [hzw])
  have h1 : windowUsageDict (segs ++ [z]) = windowUsageDict segs := by
    unfold windowUsageDict
    rw [List.foldl_append]
    simp only [List.foldl_cons, List.foldl_nil]
    rw [if_neg (by omega)]
    rcases hwin with hw | hw <;> rw [hw] <;> simp [urlStep]
  have h3 : appUsageDict (segs ++ [z])
      = updDict z.app ⟨0, 0, []⟩
          (fun d => ⟨d.total + z.durSec, d.windowCount, d.windows⟩)
          (appUsageDict segs) := by
    unfold appUsageDict
    rw [List.foldl_append]
    simp only [List.foldl_cons, List.foldl_nil]
    rw [if_neg (by omega)]
    unfold appStep appStepF
    rcases hwin with hw | hw <;> rw [hw] <;> simp
  refine ⟨h1, ?_, h3, ?_, ?_⟩
  · show (windowUsageDict (segs ++ [z])).length = (windowUsageDict segs).length
    rw [h1]
  · intro stat hstat ws hws
    have hmap : (appUsageReport (segs ++ [z])).topApps
        = ((sortDesc (fun p => p.2.total) (appUsageDict (segs ++ [z]))).take 10).map
            (fun p =>
              AppStat.mk p.1 (round2 ((p.2.total : ℚ) / 3600))
                (round2 ((p.2.total : ℚ)
                  / ((if (sortDesc (fun p => p.2.total)
                        (appUsageDict (segs ++ [z]))).isEmpty then (1 : ℤ)
                      else ((sortDesc (fun p => p.2.total)
                        (appUsageDict (segs ++ [z]))).map (fun p => p.2.total)).sum : ℤ) : ℚ)
                  * 100))
                p.2.windowCount
                (((sortDesc (fun q => q.2) p.2.windows).take 5).map (fun q =>
                  WindowStat.mk q.1 (round2 ((q.2 : ℚ) / 3600))
                    (if p.2.total > 0
                     then round2 ((q.2 : ℚ) / (p.2.total : ℚ) * 100) else 0)))) := rfl
    rw [hmap] at hstat
    rcases List.mem_map.mp hstat with ⟨p, hp, hpe⟩
    have hpdict : p ∈ appUsageDict (segs ++ [z]) :=
      (sortDesc_perm (fun p => p.2.total) _).mem_iff.mp (List.take_subset _ _ hp)
    subst hpe
    simp only at hws
    rcases List.mem_map.mp hws with ⟨q, hq, hqe⟩
    have hqwin : q ∈ p.2.windows :=
      (sortDesc_perm (fun q => q.2) _).mem_iff.mp (List.take_subset _ _ hq)
    have := appUsageDict_window_keys (segs ++ [z]) p hpdict q hqwin
    rw [← hqe]
    exact this
  · norm_num [appUsageReport, appUsageDict, windowUsageDict, browserUsageDict,
      appHourly, appStep, appStepF, urlStep, updDict, bump, sortDesc, insertDesc,
      round2, round_eq, show ("w" = "") = False from by decide]

theorem c10_null_window_excluded_witness :
    (strTruthy (Segment.mk 1800 3600 (some "A") none none 1800).window = false
      ∧ 0 < (Segment.mk 1800 3600 (some "A") none none 1800).durSec)
    ∧ (windowUsageDict ([Segment.mk 0 1800 (some "A") (some "w") none 1800]
          ++ [Segment.mk 1800 3600 (some "A") none none 1800])
        = windowUsageDict [Segment.mk 0 1800 (some "A") (some "w") none 1800]
      ∧ (appUsageReport ([Segment.mk 0 1800 (some "A") (some "w") none 1800]
          ++ [Segment.mk 1800 3600 (some "A") none none 1800])).totalWindows
        = (appUsageReport [Segment.mk 0 1800 (some "A") (some "w") none 1800]).totalWindows
      ∧ appUsageDict ([Segment.mk 0 1800 (some "A") (some "w") none 1800]
          ++ [Segment.mk 1800 3600 (some "A") none none 1800])
        = updDict (Segment.mk 1800 3600 (some "A") none none 1800).app ⟨0, 0, []⟩
            (fun d => ⟨d.total + (Segment.mk 1800 3600 (some "A") none none 1800).durSec,
              d.windowCount, d.windows⟩)
            (appUsageDict [Segment.mk 0 1800 (some "A") (some "w") none 1800])
      ∧ (∀ stat ∈ (appUsageReport ([Segment.mk 0 1800 (some "A") (some "w") none 1800]
          ++ [Segment.mk 1800 3600 (some "A") none none 1800])).topApps,
          ∀ ws ∈ stat.topWindows, ws.name ≠ "")
      ∧ ((appUsageReport [Segment.mk 0 1800 (some "A") (some "w") none 1800,
            Segment.mk 1800 3600 (some "A") none none 1800]).topApps.map
          (fun a => (a.topWindows.map (fun ws => ws.percentage)).sum)) = [50]) :=
  ⟨⟨by decide, by decide⟩,
    c10_null_window_excluded [Segment.mk 0 1800 (some "A") (some "w") none 1800]
      (Segment.mk 1800 3600 (some "A") none none 1800) (by decide) (by decide)⟩

/-! ## C5 helpers: per-category totals and grand totals, stated
independently of the dict folds and proved equal to them. -/

/-- Seconds of all positive-duration segments attributed to app `a`. -/
def segTotalFor (segs : List Segment) (a : Option String) : ℤ :=
  ((segs.filter (fun s => decide (0 < s.durSec) && (s.app == a))).map
    (fun s => s.durSec)).sum

/-- Seconds of all positive-duration segments with truthy browser URL `u`. -/
def urlTotalFor (segs : List Segment) (u : String) : ℤ :=
  ((segs.filter (fun s => decide (0 < s.durSec) && strTruthy s.browserUrl
      && (s.browserUrl == some u))).map (fun s => s.durSec)).sum

/-- Seconds of all positive-duration events in (normalized) calendar `c`. -/
def calTotalFor (evs : List Event) (c : String) : ℤ :=
  ((evs.filter (fun e => decide (0 < e.durSec) && (orUnknown e.calendar == c))).map
    (fun e => e.durSec)).sum

/-- The grand total: seconds of all positive-duration segments. -/
def grandTotalSegs (segs : List Segment) : ℤ :=
  ((segs.filter (fun s => decide (0 < s.durSec))).map (fun s => s.durSec)).sum

/-- The meetings grand total: seconds of all positive-duration events. -/
def meetGrand (evs : List Event) : ℤ :=
  ((evs.filter (fun e => decide (0 < e.durSec))).map (fun e => e.durSec)).sum

theorem lookupD_updDict {K V : Type} [DecidableEq K] (k q : K) (dflt : V)
    (f : V → V) (m : List (K × V)) :
    lookupD q dflt (updDict k dflt f m)
      = if k = q then f (lookupD q dflt m) else lookupD q dflt m := by
  induction m with
  | nil => by_cases h : k = q <;> simp [updDict, lookupD, h]
  | cons p rest ih =>
      obtain ⟨pk, pv⟩ := p
      simp only [updDict]
      by_cases hpk : pk = k
      · subst hpk
        by_cases hq : pk = q
        · subst hq; simp [lookupD]
        · simp [lookupD, hq, if_neg hq]
      · simp only [if_neg hpk, lookupD]
        by_cases hq : pk = q
        · subst hq
          have : ¬ k = pk := fun h => hpk h.symm
          simp [this]
        · simp [hq, ih]

theorem updDict_keys_nodup {K V : Type} [DecidableEq K] (k : K) (dflt : V)
    (f : V → V) (m : List (K × V)) (h : (m.map Prod.fst).Nodup) :
    ((updDict k dflt f m).map Prod.fst).Nodup := by
  induction m with
  | nil => simp [updDict]
  | cons p rest ih =>
      obtain ⟨pk, pv⟩ := p
      simp only [List.map_cons, List.nodup_cons] at h
      simp only [updDict]
      by_cases hpk : pk = k
      · rw [if_pos hpk]
        simp only [List.map_cons, List.nodup_cons]
        exact ⟨h.1, h.2⟩
      · rw [if_neg hpk]
        simp only [List.map_cons, List.nodup_cons]
        refine ⟨?_, ih h.2⟩
        intro hmem
        rcases List.mem_map.mp hmem with ⟨r, hr, hre⟩
        rcases mem_updDict_keys k dflt f rest r hr with h1 | h1
        · exact hpk (hre ▸ h1 ▸ rfl)
        · exact h.1 (hre ▸ h1)

theorem lookupD_eq_of_mem {K V : Type} [DecidableEq K] {m : List (K × V)}
    (hnd : (m.map Prod.fst).Nodup) {k : K} {v : V} (dflt : V)
    (h : (k, v) ∈ m) : lookupD k dflt m = v := by
  induction m with
  | nil => cases h
  | cons p rest ih =>
      obtain ⟨pk, pv⟩ := p
      simp only [List.map_cons, List.nodup_cons] at hnd
      rcases List.mem_cons.mp h with h1 | h1
      · cases h1
        simp [lookupD]
      · have hk : pk ≠ k := by
          intro he
          subst he
          exact hnd.1 (List.mem_map.mpr ⟨(pk, v), h1, rfl⟩)
        simp only [lookupD, if_neg hk]
        exact ih hnd.2 h1

/-- Folds whose step skips every element of the list return their initial
accumulator. -/
theorem foldl_skip_all {α β : Type} (dur : α → ℤ) (g : β → α → β)
    (l : List α) (h : ∀ x ∈ l, dur x ≤ 0) (init : β) :
    l.foldl (fun st x => if dur x ≤ 0 then st else g st x) init = init := by
  induction l generalizing init with
  | nil => rfl
  | cons x xs ih =>
      simp only [List.foldl_cons, if_pos (h x (List.mem_cons_self _ _))]
      exact ih (fun y hy => h y (List.mem_cons_of_mem _ hy)) init

/-- A zero sum of positive-filtered durations forces every duration to be
non-positive. -/
theorem sum_filter_pos_zero {α : Type} (dur : α → ℤ) (l : List α)
    (h : ((l.filter (fun x => decide (0 < dur x))).map dur).sum = 0) :
    ∀ x ∈ l, dur x ≤ 0 := by
  intro x hx
  by_contra hpos
  push_neg at hpos
  have hxf : x ∈ l.filter (fun x => decide (0 < dur x)) :=
    List.mem_filter.mpr ⟨hx, by simpa using hpos⟩
  have hne : (l.filter (fun x => decide (0 < dur x))).map dur ≠ [] := by
    intro he
    rw [List.map_eq_nil_iff] at he
    rw [he] at hxf
    cases hxf
  have hall : ∀ y ∈ (l.filter (fun x => decide (0 < dur x))).map dur, 0 < y := by
    intro y hy
    rcases List.mem_map.mp hy with ⟨z, hz, hze⟩
    have := (List.mem_filter.mp hz).2
    simp only [decide_eq_true_eq] at this
    omega
  have := List.sum_pos _ hall hne
  omega

theorem filterSum_cons {α : Type} (p : α → Bool) (dur : α → ℤ) (x : α)
    (l : List α) :
    ((((x :: l).filter p).map dur)).sum
      = (if p x then dur x else 0) + ((l.filter p).map dur).sum := by
  by_cases h : p x <;> simp [List.filter_cons, h]

theorem appStepF_total (s : Segment) (d : AppData) :
    (appStepF s d).total = d.total + s.durSec := by
  unfold appStepF
  cases s.window with
  | none => rfl
  | some w => by_cases hwe : w = "" <;> simp [hwe]

/-- The accumulated `total_seconds` of app `a` equals the sum of the
positive-duration segments attributed to `a`. -/
theorem appUsageDict_total (segs : List Segment) (a : Option String) :
    (lookupD a ⟨0, 0, []⟩ (appUsageDict segs)).total = segTotalFor segs a := by
  suffices h : ∀ m : List (Option String × AppData),
      (lookupD a ⟨0, 0, []⟩
        (segs.foldl (fun m s => if s.durSec ≤ 0 then m else appStep m s) m)).total
        = (lookupD a ⟨0, 0, []⟩ m).total + segTotalFor segs a by
    have := h []
    simpa [appUsageDict, lookupD] using this
  induction segs with
  | nil =>
      intro m
      simp [segTotalFor]
  | cons s rest ih =>
      intro m
      simp only [List.foldl_cons]
      by_cases hd : s.durSec ≤ 0
      · rw [if_pos hd, ih m]
        have : segTotalFor (s :: rest) a = segTotalFor rest a := by
          unfold segTotalFor
          rw [filterSum_cons]
          simp [show ¬ (0 < s.durSec) from by omega]
        omega
      · rw [if_neg hd, ih (appStep m s)]
        have hstep : (lookupD a ⟨0, 0, []⟩ (appStep m s)).total
            = (lookupD a ⟨0, 0, []⟩ m).total + (if s.app = a then s.durSec else 0) := by
          unfold appStep
          rw [lookupD_updDict]
          by_cases hk : s.app = a
          · rw [if_pos hk, if_pos hk, appStepF_total]
          · rw [if_neg hk, if_neg hk, add_zero]
        have hcons : segTotalFor (s :: rest) a
            = (if s.app = a then s.durSec else 0) + segTotalFor rest a := by
          unfold segTotalFor
          rw [filterSum_cons]
          by_cases hk : s.app = a
          · simp [hk, show (0 < s.durSec) from by omega]
          · simp [hk]
        rw [hstep, hcons]
        omega

def sumTotals (m : List (Option String × AppData)) : ℤ :=
  (m.map (fun p => p.2.total)).sum

theorem sumTotals_updDict (k : Option String) (f : AppData → AppData) (c : ℤ)
    (hf : ∀ d, (f d).total = d.total + c) (m : List (Option String × AppData)) :
    sumTotals (updDict k ⟨0, 0, []⟩ f m) = sumTotals m + c := by
  induction m with
  | nil => simp [updDict, sumTotals, hf]
  | cons p rest ih =>
      obtain ⟨pk, pv⟩ := p
      simp only [updDict]
      by_cases hk : pk = k
      · rw [if_pos hk]
        simp only [sumTotals, List.map_cons, List.sum_cons, hf]
        ring
      · rw [if_neg hk]
        simp only [sumTotals, List.map_cons, List.sum_cons] at *
        rw [ih]
        ring

/-- The sum of all accumulated app totals is the grand total: the sum of all
positive segment durations. -/
theorem appUsageDict_sum (segs : List Segment) :
    sumTotals (appUsageDict segs) = grandTotalSegs segs := by
  suffices h : ∀ m : List (Option String × AppData),
      sumTotals (segs.foldl (fun m s => if s.durSec ≤ 0 then m else appStep m s) m)
        = sumTotals m + grandTotalSegs segs by
    have := h []
    simpa [appUsageDict, sumTotals] using this
  induction segs with
  | nil =>
      intro m
      simp [grandTotalSegs]
  | cons s rest ih =>
      intro m
      simp only [List.foldl_cons]
      have hg : grandTotalSegs (s :: rest)
          = (if 0 < s.durSec then s.durSec else 0) + grandTotalSegs rest := by
        unfold grandTotalSegs
        rw [filterSum_cons]
        by_cases hp : 0 < s.durSec <;> simp [hp]
      by_cases hd : s.durSec ≤ 0
      · rw [if_pos hd, ih m, hg, if_neg (by omega)]
        omega
      · rw [if_neg hd, ih (appStep m s), hg, if_pos (by omega)]
        have : sumTotals (appStep m s) = sumTotals m + s.durSec :=
          sumTotals_updDict s.app (appStepF s) s.durSec (appStepF_total s) m
        omega

theorem lookupD_urlStep (m : List (String × ℤ)) (o : Option String) (v : ℤ)
    (u : String) :
    lookupD u 0 (urlStep m o v)
      = lookupD u 0 m + (if o = some u ∧ u ≠ "" then v else 0) := by
  cases o with
  | none => simp [urlStep]
  | some b =>
      by_cases h2 : b = ""
      · subst h2
        rw [show urlStep m (some "") v = m from by simp [urlStep]]
        rw [if_neg (by rintro ⟨hu, hne⟩; injection hu with hu; exact hne hu.symm)]
        omega
      · rw [show urlStep m (some b) v = bump b v m from by simp [urlStep, h2]]
        unfold bump
        rw [lookupD_updDict]
        by_cases h3 : b = u
        · subst h3
          rw [if_pos rfl, if_pos ⟨rfl, h2⟩]
        · rw [if_neg h3,
            if_neg (by rintro ⟨hu, _⟩; injection hu with hu; exact h3 hu)]
          omega

/-- The accumulated browser-URL seconds equal the sum of the
positive-duration segments carrying that (truthy) URL. -/
theorem browserUsageDict_lookup (segs : List Segment) (u : String) :
    lookupD u 0 (browserUsageDict segs) = urlTotalFor segs u := by
  suffices h : ∀ m : List (String × ℤ),
      lookupD u 0 (segs.foldl
        (fun m s => if s.durSec ≤ 0 then m else urlStep m s.browserUrl s.durSec) m)
        = lookupD u 0 m + urlTotalFor segs u by
    have := h []
    simpa [browserUsageDict, lookupD] using this
  induction segs with
  | nil =>
      intro m
      simp [urlTotalFor]
  | cons s rest ih =>
      intro m
      simp only [List.foldl_cons]
      have hcond : (decide (0 < s.durSec) && strTruthy s.browserUrl
          && (s.browserUrl == some u)) = true
          ↔ (0 < s.durSec ∧ s.browserUrl = some u ∧ u ≠ "") := by
        constructor
        · intro hb
          simp only [Bool.and_eq_true, decide_eq_true_eq, beq_iff_eq] at hb
          obtain ⟨⟨hd1, ht⟩, hu⟩ := hb
          refine ⟨hd1, hu, ?_⟩
          intro hue
          rw [hu, hue] at ht
          simp [strTruthy] at ht
        · rintro ⟨hd1, hu, hue⟩
          simp only [Bool.and_eq_true, decide_eq_true_eq, beq_iff_eq]
          refine ⟨⟨hd1, ?_⟩, hu⟩
          rw [hu]
          simpa [strTruthy] using hue
      have hcons : urlTotalFor (s :: rest) u
          = (if 0 < s.durSec ∧ s.browserUrl = some u ∧ u ≠ "" then s.durSec else 0)
            + urlTotalFor rest u := by
        unfold urlTotalFor
        rw [filterSum_cons]
        by_cases hc : 0 < s.durSec ∧ s.browserUrl = some u ∧ u ≠ ""
        · rw [if_pos (hcond.mpr hc), if_pos hc]
        · rw [if_neg (fun hx => hc (hcond.mp hx)), if_neg hc]
      by_cases hd : s.durSec ≤ 0
      · rw [if_pos hd, ih m, hcons, if_neg (by omega)]
        omega
      · rw [if_neg hd, ih _, lookupD_urlStep, hcons]
        by_cases hc2 : s.browserUrl = some u ∧ u ≠ ""
        · rw [if_pos hc2, if_pos ⟨by omega, hc2.1, hc2.2⟩]
          omega
        · rw [if_neg hc2, if_neg (fun hx => hc2 ⟨hx.2.1, hx.2.2⟩)]
          omega

/-- The accumulated per-calendar seconds equal the sum of the
positive-duration events whose normalized calendar is `c`. -/
theorem calDict_lookup (evs : List Event) (c : String) :
    (lookupD c ⟨0, 0⟩ (calDict evs)).totalSeconds = calTotalFor evs c := by
  suffices h : ∀ m : List (String × CalData),
      (lookupD c ⟨0, 0⟩
        (evs.foldl (fun m e => if e.durSec ≤ 0 then m else calStep m e) m)).totalSeconds
        = (lookupD c ⟨0, 0⟩ m).totalSeconds + calTotalFor evs c by
    have := h []
    simpa [calDict, lookupD] using this
  induction evs with
  | nil =>
      intro m
      simp [calTotalFor]
  | cons e rest ih =>
      intro m
      simp only [List.foldl_cons]
      have hcons : calTotalFor (e :: rest) c
          = (if 0 < e.durSec ∧ orUnknown e.calendar = c then e.durSec else 0)
            + calTotalFor rest c := by
        unfold calTotalFor
        rw [filterSum_cons]
        by_cases h1 : 0 < e.durSec
        · by_cases h2 : orUnknown e.calendar = c
          · simp [h1, h2]
          · simp [h1, h2]
        · simp [h1]
      by_cases hd : e.durSec ≤ 0
      · rw [if_pos hd, ih m, hcons, if_neg (by omega)]
        omega
      · rw [if_neg hd, ih _]
        unfold calStep
        rw [lookupD_updDict, hcons]
        by_cases h2 : orUnknown e.calendar = c
        · rw [if_pos h2, if_pos ⟨by omega, h2⟩]
          dsimp only
          omega
        · rw [if_neg h2, if_neg (fun hcon => h2 hcon.2)]
          omega

/-- `total_duration` accumulated by `get_meetings` equals the grand total of
positive event durations. -/
theorem meetTotal_eq (evs : List Event) : meetTotal evs = meetGrand evs := by
  suffices h : ∀ t : ℤ,
      evs.foldl (fun t e => if e.durSec ≤ 0 then t else t + e.durSec) t
        = t + meetGrand evs by
    have := h 0
    simpa [meetTotal] using this
  induction evs with
  | nil =>
      intro t
      simp [meetGrand]
  | cons e rest ih =>
      intro t
      simp only [List.foldl_cons]
      have hcons : meetGrand (e :: rest)
          = (if 0 < e.durSec then e.durSec else 0) + meetGrand rest := by
        unfold meetGrand
        rw [filterSum_cons]
        by_cases h1 : 0 < e.durSec <;> simp [h1]
      by_cases hd : e.durSec ≤ 0
      · rw [if_pos hd, ih t, hcons, if_neg (by omega)]
        omega
      · rw [if_neg hd, ih _, hcons, if_pos (by omega)]
        omega

theorem appUsageDict_keys_nodup (segs : List Segment) :
    ((appUsageDict segs).map Prod.fst).Nodup := by
  suffices h : ∀ m : List (Option String × AppData), (m.map Prod.fst).Nodup →
      ((segs.foldl (fun m s => if s.durSec ≤ 0 then m else appStep m s) m).map
        Prod.fst).Nodup by
    exact h [] (by simp)
  induction segs with
  | nil => intro m hm; simpa using hm
  | cons s rest ih =>
      intro m hm
      simp only [List.foldl_cons]
      by_cases hd : s.durSec ≤ 0
      · rw [if_pos hd]; exact ih m hm
      · rw [if_neg hd]
        exact ih (updDict s.app ⟨0, 0, []⟩ (appStepF s) m)
          (updDict_keys_nodup s.app ⟨0, 0, []⟩ (appStepF s) m hm)

theorem urlStep_keys_nodup (m : List (String × ℤ)) (o : Option String) (v : ℤ)
    (hm : (m.map Prod.fst).Nodup) : ((urlStep m o v).map Prod.fst).Nodup := by
  cases o with
  | none => simpa [urlStep] using hm
  | some b =>
      by_cases h2 : b = ""
      · simpa [urlStep, h2] using hm
      · rw [show urlStep m (some b) v = bump b v m from by simp [urlStep, h2]]
        exact updDict_keys_nodup b 0 (· + v) m hm

theorem browserUsageDict_keys_nodup (segs : List Segment) :
    ((browserUsageDict segs).map Prod.fst).Nodup := by
  suffices h : ∀ m : List (String × ℤ), (m.map Prod.fst).Nodup →
      ((segs.foldl
        (fun m s => if s.durSec ≤ 0 then m else urlStep m s.browserUrl s.durSec)
        m).map Prod.fst).Nodup by
    exact h [] (by simp)
  induction segs with
  | nil => intro m hm; simpa using hm
  | cons s rest ih =>
      intro m hm
      simp only [List.foldl_cons]
      by_cases hd : s.durSec ≤ 0
      · rw [if_pos hd]; exact ih m hm
      · rw [if_neg hd]
        exact ih _ (urlStep_keys_nodup m s.browserUrl s.durSec hm)

theorem calDict_keys_nodup (evs : List Event) :
    ((calDict evs).map Prod.fst).Nodup := by
  suffices h : ∀ m : List (String × CalData), (m.map Prod.fst).Nodup →
      ((evs.foldl (fun m e => if e.durSec ≤ 0 then m else calStep m e) m).map
        Prod.fst).Nodup by
    exact h [] (by simp)
  induction evs with
  | nil => intro m hm; simpa using hm
  | cons e rest ih =>
      intro m hm
      simp only [List.foldl_cons]
      by_cases hd : e.durSec ≤ 0
      · rw [if_pos hd]; exact ih m hm
      · rw [if_neg hd]
        exact ih (updDict (orUnknown e.calendar) ⟨0, 0⟩
            (fun d => ⟨d.eventCount + 1, d.totalSeconds + e.durSec⟩) m)
          (updDict_keys_nodup (orUnknown e.calendar) ⟨0, 0⟩
            (fun d => ⟨d.eventCount + 1, d.totalSeconds + e.durSec⟩) m hm)

/-- C5: every ranked percentage (apps, URLs, calendars) equals
`total_seconds / grand_total * 100` rounded to 2 decimals, where the grand
total sums over ALL categories in scope (all positive segment durations for
apps and URLs, all positive event durations for calendars), not only the
displayed top-N; and when the grand total is 0 there are no ranked entries,
every hourly percentage is 0, and the displayed grand totals are 0. -/
theorem c5_percentage_grand_total (segs : List Segment) (evs : List Event) :
    (0 < grandTotalSegs segs →
      (∀ stat ∈ (appUsageReport segs).topApps,
        stat.percentage = round2 ((segTotalFor segs stat.name : ℚ)
          / (grandTotalSegs segs : ℚ) * 100))
      ∧ (∀ ustat ∈ (appUsageReport segs).topUrls,
        ustat.percentage = round2 ((urlTotalFor segs ustat.url : ℚ)
          / (grandTotalSegs segs : ℚ) * 100)))
    ∧ (grandTotalSegs segs = 0 →
        (appUsageReport segs).topApps = []
        ∧ (appUsageReport segs).topUrls = []
        ∧ (∀ hstat ∈ (appUsageReport segs).hourlyActivity, hstat.percentage = 0)
        ∧ (appUsageReport segs).totalHours = 0)
    ∧ (0 < meetGrand evs →
      ∀ cstat ∈ (meetingsReport evs).calendarStats,
        cstat.percentage = round2 ((calTotalFor evs cstat.calendar : ℚ)
          / (meetGrand evs : ℚ) * 100))
    ∧ (meetGrand evs = 0 →
        (meetingsReport evs).calendarStats = []
        ∧ (meetingsReport evs).totalSeconds = 0
        ∧ (meetingsReport evs).totalHours = 0) := by
  have hsum := appUsageDict_sum segs
  refine ⟨?_, ?_, ?_, ?_⟩
  · intro hg
    have hdne : appUsageDict segs ≠ [] := by
      intro he
      rw [he] at hsum
      simp only [sumTotals, List.map_nil, List.sum_nil] at hsum
      omega
    have hsne : sortDesc (fun p => p.2.total) (appUsageDict segs) ≠ [] := by
      intro he
      have hperm := sortDesc_perm (fun p => p.2.total) (appUsageDict segs)
      rw [he] at hperm
      exact hdne (List.perm_nil.mp hperm.symm)
    have htd : (if (sortDesc (fun p => p.2.total) (appUsageDict segs)).isEmpty
          then (1 : ℤ)
          else ((sortDesc (fun p => p.2.total) (appUsageDict segs)).map
            (fun p => p.2.total)).sum)
        = grandTotalSegs segs := by
      rw [if_neg (by simpa [List.isEmpty_iff] using hsne)]
      rw [((sortDesc_perm (fun p => p.2.total) (appUsageDict segs)).map
        (fun p => p.2.total)).sum_eq]
      exact hsum
    constructor
    · intro stat hstat
      rcases List.mem_map.mp hstat with ⟨p, hp, hpe⟩
      have hmem : p ∈ appUsageDict segs :=
        (sortDesc_perm (fun p => p.2.total) _).mem_iff.mp (List.take_subset _ _ hp)
      have hpt : p.2.total = segTotalFor segs p.1 := by
        rw [← appUsageDict_total segs p.1,
          lookupD_eq_of_mem (appUsageDict_keys_nodup segs) ⟨0, 0, []⟩ hmem]
      subst hpe
      dsimp only
      rw [htd, hpt]
    · intro ustat hustat
      rcases List.mem_map.mp hustat with ⟨q, hq, hqe⟩
      have hmem : q ∈ browserUsageDict segs :=
        (sortDesc_perm (fun q => q.2) _).mem_iff.mp (List.take_subset _ _ hq)
      have hqt : q.2 = urlTotalFor segs q.1 := by
        rw [← browserUsageDict_lookup segs q.1,
          lookupD_eq_of_mem (browserUsageDict_keys_nodup segs) 0 hmem]
      subst hqe
      dsimp only
      rw [htd, hqt]
  · intro hg0
    have hall : ∀ s ∈ segs, s.durSec ≤ 0 := by
      apply sum_filter_pos_zero (fun s => s.durSec) segs
      unfold grandTotalSegs at hg0
      exact hg0
    have hd1 : appUsageDict segs = [] := by
      unfold appUsageDict
      exact foldl_skip_all (fun s => s.durSec) appStep segs hall []
    have hd2 : windowUsageDict segs = [] := by
      unfold windowUsageDict
      exact foldl_skip_all (fun s => s.durSec)
        (fun m s => urlStep m s.window s.durSec) segs hall []
    have hd3 : browserUsageDict segs = [] := by
      unfold browserUsageDict
      exact foldl_skip_all (fun s => s.durSec)
        (fun m s => urlStep m s.browserUrl s.durSec) segs hall []
    have hd4 : appHourly segs = (fun _ => 0) := by
      unfold appHourly
      exact foldl_skip_all (fun s => s.durSec)
        (fun f s => addCredits f (creditHoursApp s.startT s.endT s.durSec))
        segs hall (fun _ => 0)
    have hrep : appUsageReport segs = appUsageReport [] := by
      unfold appUsageReport
      rw [show appUsageDict segs = appUsageDict [] from hd1,
        show windowUsageDict segs = windowUsageDict [] from hd2,
        show browserUsageDict segs = browserUsageDict [] from hd3,
        show appHourly segs = appHourly [] from hd4]
    refine ⟨?_, ?_, ?_, ?_⟩ <;> rw [hrep] <;>
      norm_num [appUsageReport, appUsageDict, windowUsageDict, browserUsageDict,
        appHourly, sortDesc, round2, round_eq]
  · intro hg
    intro cstat hcstat
    rcases List.mem_map.mp
      ((sortDesc_perm (fun s : CalStat => s.hours) _).mem_iff.mp hcstat) with
      ⟨p, hp, hpe⟩
    have hpt : p.2.totalSeconds = calTotalFor evs p.1 := by
      rw [← calDict_lookup evs p.1,
        lookupD_eq_of_mem (calDict_keys_nodup evs) ⟨0, 0⟩ hp]
    have hmg : meetTotal evs = meetGrand evs := meetTotal_eq evs
    subst hpe
    dsimp only
    rw [hmg, if_pos hg, hpt]
  · intro hg0
    have hall : ∀ e ∈ evs, e.durSec ≤ 0 := by
      apply sum_filter_pos_zero (fun e => e.durSec) evs
      unfold meetGrand at hg0
      exact hg0
    have hmg : meetTotal evs = 0 := by
      rw [meetTotal_eq evs, hg0]
    have hd1 : calDict evs = [] := by
      unfold calDict
      exact foldl_skip_all (fun e => e.durSec) calStep evs hall []
    refine ⟨?_, ?_, ?_⟩
    · show sortDesc (fun s : CalStat => s.hours)
          ((calDict evs).map _) = []
      rw [hd1]
      rfl
    · exact hmg
    · show round2 ((meetTotal evs : ℚ) / 3600) = 0
      rw [hmg]
      norm_num [round2, round_eq]

theorem c5_percentage_grand_total_witness :
    0 < grandTotalSegs [Segment.mk 0 1800 (some "A") none (some "u") 1800]
    ∧ 0 < meetGrand [Event.mk 0 1800 (some "Work") 1800]
    ∧ ((∀ stat ∈ (appUsageReport
          [Segment.mk 0 1800 (some "A") none (some "u") 1800]).topApps,
        stat.percentage = round2
          ((segTotalFor [Segment.mk 0 1800 (some "A") none (some "u") 1800]
              stat.name : ℚ)
            / (grandTotalSegs [Segment.mk 0 1800 (some "A") none (some "u") 1800] : ℚ)
            * 100))
      ∧ (∀ ustat ∈ (appUsageReport
          [Segment.mk 0 1800 (some "A") none (some "u") 1800]).topUrls,
        ustat.percentage = round2
          ((urlTotalFor [Segment.mk 0 1800 (some "A") none (some "u") 1800]
              ustat.url : ℚ)
            / (grandTotalSegs [Segment.mk 0 1800 (some "A") none (some "u") 1800] : ℚ)
            * 100)))
    ∧ (∀ cstat ∈ (meetingsReport [Event.mk 0 1800 (some "Work") 1800]).calendarStats,
        cstat.percentage = round2
          ((calTotalFor [Event.mk 0 1800 (some "Work") 1800] cstat.calendar : ℚ)
            / (meetGrand [Event.mk 0 1800 (some "Work") 1800] : ℚ) * 100)) :=
  ⟨by decide, by decide,
    (c5_percentage_grand_total
      [Segment.mk 0 1800 (some "A") none (some "u") 1800]
      [Event.mk 0 1800 (some "Work") 1800]).1 (by decide),
    (c5_percentage_grand_total
      [Segment.mk 0 1800 (some "A") none (some "u") 1800]
      [Event.mk 0 1800 (some "Work") 1800]).2.2.1 (by decide)⟩

end RewindMCP
